import Mathlib

/-!
Verification of the tiedot persistent chained hash index (`file/file.go` and
`file/hash.go`): a memory-mapped append-growing file and a static-bucket
chained hash table of uint64 key-value pairs built on top of it.

The byte buffer of the mapped file is modelled as a total function
`Nat → Nat` (bytes, each < 256; bytes never written are 0, matching the
zeroed tail of the mapped file).  Machine integers are modelled as `Nat`;
the places where uint64 wrap-around is observable (the `mid - 1` index in
the used-size binary search) take the `% 2^64` explicitly.  Loops are
modelled by structural recursion on an explicit fuel argument so that all
definitions compute; fuel bounds are chosen from the loop variants of the
source (chain hops strictly increase the bucket number) and sufficiency is
proved where a claim needs it.  Accesses that would panic in Go (slice
index out of range) are modelled with `Option`.
-/

namespace Tiedot

/-- `FILE_GROWTH_INCREMENTAL` from file.go: the 1 MiB chunk used by the grow loop. -/
def FILE_GROWTH_INCREMENTAL : Nat := 1048576

/-- `HASH_TABLE_GROWTH` from hash.go: hash table files grow 1 MiB at a time. -/
def HASH_TABLE_GROWTH : Nat := 1048576

/-- `ENTRY_VALID` flag byte. -/
def ENTRY_VALID : Nat := 1

/-- `ENTRY_INVALID` flag byte. -/
def ENTRY_INVALID : Nat := 0

/-- `ENTRY_SIZE`: validity byte + 10-byte varint key + 10-byte varint value. -/
def ENTRY_SIZE : Nat := 1 + 10 + 10

/-- `BUCKET_HEADER_SIZE`: the 10-byte varint `next` header of a bucket. -/
def BUCKET_HEADER_SIZE : Nat := 10

/-! ### Varint encoding (`encoding/binary`)

`binary.PutUvarint` writes base-128 little-endian digits, all but the last
with the continuation bit 0x80 set; `binary.Uvarint` reads until the first
byte without the continuation bit.  `byte(x) | 0x80 = x % 128 + 128` and
`x >>= 7` is `x / 128`.  The fuel 10 covers every `x < 2^64`. -/

def putUvarintAux : Nat → Nat → List Nat
  | 0, x => [x % 256]
  | fuel + 1, x => if x < 128 then [x] else (x % 128 + 128) :: putUvarintAux fuel (x / 128)

/-- The byte sequence `binary.PutUvarint` stores for `x` (for `x < 2^64`). -/
def putUvarintBytes (x : Nat) : List Nat := putUvarintAux 10 x

/-- Store a list of bytes at consecutive addresses of a buffer. -/
def writeBytes (buf : Nat → Nat) : Nat → List Nat → Nat → Nat
  | _, [], i => buf i
  | addr, b :: bs, i => if i = addr then b else writeBytes buf (addr + 1) bs i

/-- `binary.PutUvarint(buf[addr:addr+10], x)`: writes only the bytes of the
varint, leaving the rest of the 10-byte field unchanged. -/
def bufPutUvarint (buf : Nat → Nat) (addr x : Nat) : Nat → Nat :=
  writeBytes buf addr (putUvarintBytes x)

/-- A single byte store `buf[addr] = v`. -/
def setByte (buf : Nat → Nat) (addr v : Nat) : Nat → Nat :=
  fun i => if i = addr then v else buf i

/-- The loop of `binary.Uvarint` over the 10-byte window starting at `addr`:
`rem` counts the bytes left in the window, `i` is the byte index, `x` the
accumulator and `s` the shift.  Falling off the window yields 0, as does the
64-bit overflow guard at the tenth byte. -/
def uvarintGo (buf : Nat → Nat) (addr : Nat) : Nat → Nat → Nat → Nat → Nat
  | 0, _, _, _ => 0
  | rem + 1, i, x, s =>
    let b := buf (addr + i)
    if b < 128 then
      if i = 9 ∧ 1 < b then 0 else x ||| (b <<< s)
    else uvarintGo buf addr rem (i + 1) (x ||| ((b % 128) <<< s)) (s + 7)

/-- `binary.Uvarint(buf[addr:addr+10])` (the decoded value; the length return
is discarded by all callers in hash.go). -/
def uvarintAt (buf : Nat → Nat) (addr : Nat) : Nat := uvarintGo buf addr 10 0 0 0

/-! ### The mapped file (`file.go`) -/

/-- The `File` of file.go.  `FileLen` is the physical length of the on-disk
file (the bytes actually appended by the grow loop), which the Go struct
does not store but which the os file has; `Size` is the field the code
maintains by `Size += Growth`.  `Buf` is the mapped window. -/
structure File where
  UsedSize : Nat
  Size : Nat
  Growth : Nat
  FileLen : Nat
  Buf : Nat → Nat

/-- Length of the slice written by one iteration of the grow loop of
`CheckSizeAndEnsure` at offset `i`: `zeroBuf[0 : i+FILE_GROWTH_INCREMENTAL-growth]`
when `i+FILE_GROWTH_INCREMENTAL > growth`, the full chunk otherwise. -/
def chunkLen (growth i : Nat) : Nat :=
  if growth < i + FILE_GROWTH_INCREMENTAL then i + FILE_GROWTH_INCREMENTAL - growth
  else FILE_GROWTH_INCREMENTAL

/-- The write loop `for i := 0; i < growth; i += FILE_GROWTH_INCREMENTAL` of
`CheckSizeAndEnsure`, accumulating the number of zero bytes appended. -/
def appendLenGo (growth : Nat) : Nat → Nat → Nat → Nat
  | 0, _, acc => acc
  | fuel + 1, i, acc =>
    if i < growth then appendLenGo growth fuel (i + FILE_GROWTH_INCREMENTAL) (acc + chunkLen growth i)
    else acc

/-- Total number of zero bytes one growth step of `CheckSizeAndEnsure`
appends to the on-disk file. -/
def appendLen (growth : Nat) : Nat :=
  appendLenGo growth (growth / FILE_GROWTH_INCREMENTAL + 1) 0 0

/-- One growth step of `CheckSizeAndEnsure`: unmap, append `appendLen Growth`
zero bytes at the end of the file, fsync, remap, `Size += Growth`.  After the
remap the window shows the old file content below the old physical length and
zeros in the appended region. -/
def fileGrowStep (f : File) : File :=
  { f with
    Size := f.Size + f.Growth
    FileLen := f.FileLen + appendLen f.Growth
    Buf := fun i => if i < f.FileLen then f.Buf i else 0 }

/-- `File.CheckSize`: `UsedSize + more <= Size`. -/
def File.CheckSize (f : File) (more : Nat) : Bool := f.UsedSize + more ≤ f.Size

/-- The recursion of `CheckSizeAndEnsure`: return when `UsedSize + more ≤ Size`,
otherwise grow one step and recurse.  Fuel-indexed; since every step adds
`Growth ≥ 1` to `Size`, fuel `UsedSize + more + 1` always suffices (for
`Growth = 0` the Go code would recurse forever). -/
def ensureGo : Nat → File → Nat → File
  | 0, f, _ => f
  | fuel + 1, f, more =>
    if f.UsedSize + more ≤ f.Size then f else ensureGo fuel (fileGrowStep f) more

/-- `File.CheckSizeAndEnsure`. -/
def File.CheckSizeAndEnsure (f : File) (more : Nat) : File :=
  ensureGo (f.UsedSize + more + 1) f more

/-- `Open(name, growth)` on a nonexistent or empty file: the file is created,
`Size = 0`, and the table pre-grows by one `growth` increment; `UsedSize`
stays 0 and the whole window is zero. -/
def openEmptyFile (growth : Nat) : File :=
  File.CheckSizeAndEnsure
    { UsedSize := 0, Size := 0, Growth := growth, FileLen := 0, Buf := fun _ => 0 } growth

/-- A bounds-checked read `buf[idx]` of a mapped window of length `len`:
`none` models the Go index-out-of-range panic. -/
def readByte (buf : Nat → Nat) (len idx : Nat) : Option Nat :=
  if idx < len then some (buf idx) else none

/-- The used-size recovery loop of `Open` (binary search over the zero tail).
Result: `none` = fuel exhausted, `some none` = index panic,
`some (some u)` = `UsedSize` set to `u`.  The index `mid - 1` is computed in
uint64 arithmetic, hence the explicit `% 2^64`. -/
def searchGo (buf : Nat → Nat) (len : Nat) : Nat → Nat → Nat → Nat → Option (Option Nat)
  | 0, _, _, _ => none
  | fuel + 1, low, mid, high =>
    if high - mid = 1 then
      match readByte buf len mid with
      | none => some none
      | some bm =>
        if bm = 0 then
          match readByte buf len ((mid + (2 ^ 64 - 1)) % 2 ^ 64) with
          | none => some none
          | some bp =>
            if bp = 0 then some (some ((mid + (2 ^ 64 - 1)) % 2 ^ 64)) else some (some mid)
        else some (some high)
    else
      match readByte buf len mid with
      | none => some none
      | some bm =>
        if bm = 0 then searchGo buf len fuel low (low + (mid - low) / 2) mid
        else searchGo buf len fuel mid (mid + (high - mid) / 2) high

/-- The binary search of `Open` with its initial state
`low = 0, mid = size/2, high = size`. -/
def findUsedSize (buf : Nat → Nat) (len : Nat) : Option (Option Nat) :=
  searchGo buf len (len + 1) 0 (len / 2) len

/-- `Open(name, growth)` on an existing non-empty file of content `content`
and length `len`: map the file and recover `UsedSize` by the binary search.
`none` models the search panicking (or, unreachably, running out of fuel). -/
def openFileExisting (content : Nat → Nat) (len growth : Nat) : Option File :=
  match findUsedSize content len with
  | none => none
  | some none => none
  | some (some u) =>
    some { UsedSize := u, Size := len, Growth := growth, FileLen := len,
           Buf := fun i => if i < len then content i else 0 }

/-! ### The hash table (`hash.go`) -/

/-- The `HashTable` of hash.go (the lock fields are concurrency-only and
carry no data). -/
structure HashTable where
  File : File
  BucketSize : Nat
  HashBits : Nat
  PerBucket : Nat
  NumBuckets : Nat
  InitialBuckets : Nat

/-- `nextBucket`: number of the next chained bucket, 0 if there is none or
the header fails validation. -/
def HashTable.nextBucket (ht : HashTable) (bucket : Nat) : Nat :=
  if ht.NumBuckets ≤ bucket then 0
  else
    let bucketAddr := bucket * ht.BucketSize
    let next := uvarintAt ht.File.Buf bucketAddr
    if next = 0 then 0
    else if next ≤ bucket then 0
    else if ht.NumBuckets ≤ next ∨ next < ht.InitialBuckets then 0
    else next

/-- The loop of `lastBucket`.  Each hop satisfies
`curr < nextBucket curr < NumBuckets`, so fuel `NumBuckets + 1` suffices. -/
def lastBucketAux (ht : HashTable) : Nat → Nat → Nat
  | 0, curr => curr
  | fuel + 1, curr =>
    let nxt := ht.nextBucket curr
    if nxt = 0 then curr else lastBucketAux ht fuel nxt

/-- `lastBucket`: the last bucket number in the chain of `bucket`. -/
def HashTable.lastBucket (ht : HashTable) (bucket : Nat) : Nat :=
  lastBucketAux ht (ht.NumBuckets + 1) bucket

/-- `grow(bucket)`: ensure room for one more bucket, link the last bucket of
the chain to the new bucket `NumBuckets`, and account for it.  (The region
mutex bookkeeping of the source has no data content.) -/
def HashTable.grow (ht : HashTable) (bucket : Nat) : HashTable :=
  let f := if ht.File.CheckSize ht.BucketSize then ht.File
           else ht.File.CheckSizeAndEnsure ht.BucketSize
  let ht1 : HashTable := { ht with File := f }
  let lastBucketAddr := ht1.lastBucket bucket * ht.BucketSize
  { ht1 with
    File := { f with
      Buf := bufPutUvarint f.Buf lastBucketAddr ht.NumBuckets
      UsedSize := f.UsedSize + ht.BucketSize }
    NumBuckets := ht.NumBuckets + 1 }

/-- The file after `grow`'s initial `CheckSize`/`CheckSizeAndEnsure` step
(the first `let` of `grow`), named so the growth can be reasoned about in
stages. -/
def growFile (ht : HashTable) : File :=
  if ht.File.CheckSize ht.BucketSize then ht.File
  else ht.File.CheckSizeAndEnsure ht.BucketSize

/-- The table holding `growFile` but not yet relinked (the `ht1` of
`grow`). -/
def growMid (ht : HashTable) : HashTable := { ht with File := growFile ht }

/-- The bucket chains after `grow h0`: the chain of `h0` gains the fresh
bucket `n` at its end. -/
def growChains (chains : Nat → List Nat) (h0 n : Nat) : Nat → List Nat :=
  fun h => if h = h0 then chains h0 ++ [n] else chains h

/-- `hashKey`: mask the key down to `HashBits` bits. -/
def HashTable.hashKey (ht : HashTable) (key : Nat) : Nat :=
  key &&& ((1 <<< ht.HashBits) - 1)

/-- Address of entry `entry` of bucket `bucket`. -/
def HashTable.entryAddr (ht : HashTable) (bucket entry : Nat) : Nat :=
  bucket * ht.BucketSize + BUCKET_HEADER_SIZE + entry * ENTRY_SIZE

/-- The three stores `Put` performs on a claimed entry at address `a`:
`Buf[a] = ENTRY_VALID`, then the key varint at `a+1` and the value varint at
`a+11`. -/
def writeEntry (ht : HashTable) (a key val : Nat) : HashTable :=
  { ht with File := { ht.File with
      Buf := bufPutUvarint (bufPutUvarint (setByte ht.File.Buf a ENTRY_VALID) (a + 1) key)
        (a + 11) val } }

/-- The store `Remove` performs on a matching entry at address `a`:
`Buf[a] = ENTRY_INVALID`. -/
def invalidateEntry (ht : HashTable) (a : Nat) : HashTable :=
  { ht with File := { ht.File with Buf := setByte ht.File.Buf a ENTRY_INVALID } }

/-- The scan loop of `Put`: claim the first entry whose flag is not
`ENTRY_VALID` (storing flag, key and value), follow the chain when a bucket
is exhausted.  `some none` signals the chain ended (the caller grows),
`none` is fuel exhaustion. -/
def putScanGo (ht : HashTable) (key val : Nat) : Nat → Nat → Nat → Option (Option HashTable)
  | 0, _, _ => none
  | fuel + 1, bucket, entry =>
    let a := ht.entryAddr bucket entry
    if ht.File.Buf a ≠ ENTRY_VALID then some (some (writeEntry ht a key val))
    else if entry + 1 = ht.PerBucket then
      match ht.nextBucket bucket with
      | 0 => some none
      | next => putScanGo ht key val fuel next 0
    else putScanGo ht key val fuel bucket (entry + 1)

/-- Fuel covering one full chain walk: a chain visits at most `NumBuckets`
buckets (bucket numbers strictly increase along it) of `PerBucket` entries
each. -/
def scanFuel (ht : HashTable) : Nat := (ht.NumBuckets + 2) * (ht.PerBucket + 1) + 1

/-- `Put` with an explicit bound on the grow-and-retry recursion. -/
def putFuelGo : Nat → HashTable → Nat → Nat → Option HashTable
  | 0, _, _, _ => none
  | fuel + 1, ht, key, val =>
    match putScanGo ht key val (scanFuel ht) (ht.hashKey key) 0 with
    | none => none
    | some (some ht2) => some ht2
    | some none => putFuelGo fuel (ht.grow (ht.hashKey key)) key val

/-- `Put(key, val)`.  The source retries after `grow` by a tail call; a
single grow always suffices when the grown bucket is empty (which the
zeroed tail of the file guarantees), so two rounds of fuel model it. -/
def HashTable.Put (ht : HashTable) (key val : Nat) : Option HashTable :=
  putFuelGo 2 ht key val

/-- The scan loop of `Get`: collect every valid entry whose stored key equals
`key` and that passes `flt`, stop at `limit` matches (`limit = 0` is
unbounded), at a never-written sentinel, or at the end of the chain. -/
def getGo (ht : HashTable) (key limit : Nat) (flt : Nat → Nat → Bool) :
    Nat → Nat → Nat → Nat → List Nat → List Nat → Option (List Nat × List Nat)
  | 0, _, _, _, _, _ => none
  | fuel + 1, count, bucket, entry, keys, vals =>
    let a := ht.entryAddr bucket entry
    let entryKey := uvarintAt ht.File.Buf (a + 1)
    let entryVal := uvarintAt ht.File.Buf (a + 11)
    if ht.File.Buf a = ENTRY_VALID then
      if entryKey = key ∧ flt entryKey entryVal then
        let keys2 := keys ++ [entryKey]
        let vals2 := vals ++ [entryVal]
        if count + 1 = limit then some (keys2, vals2)
        else if entry + 1 = ht.PerBucket then
          match ht.nextBucket bucket with
          | 0 => some (keys2, vals2)
          | next => getGo ht key limit flt fuel (count + 1) next 0 keys2 vals2
        else getGo ht key limit flt fuel (count + 1) bucket (entry + 1) keys2 vals2
      else if entry + 1 = ht.PerBucket then
        match ht.nextBucket bucket with
        | 0 => some (keys, vals)
        | next => getGo ht key limit flt fuel count next 0 keys vals
      else getGo ht key limit flt fuel count bucket (entry + 1) keys vals
    else if entryKey = 0 ∧ entryVal = 0 then some (keys, vals)
    else if entry + 1 = ht.PerBucket then
      match ht.nextBucket bucket with
      | 0 => some (keys, vals)
      | next => getGo ht key limit flt fuel count next 0 keys vals
    else getGo ht key limit flt fuel count bucket (entry + 1) keys vals

/-- `Get(key, limit, filter)`. -/
def HashTable.Get (ht : HashTable) (key limit : Nat) (flt : Nat → Nat → Bool) :
    Option (List Nat × List Nat) :=
  getGo ht key limit flt (scanFuel ht) 0 (ht.hashKey key) 0 [] []

/-- The scan loop of `Remove`: flip the flag of the first valid entry storing
`(key, val)` to `ENTRY_INVALID`; stop at a never-written sentinel or the end
of the chain. -/
def removeGo (ht : HashTable) (key val : Nat) : Nat → Nat → Nat → Option HashTable
  | 0, _, _ => none
  | fuel + 1, bucket, entry =>
    let a := ht.entryAddr bucket entry
    let entryKey := uvarintAt ht.File.Buf (a + 1)
    let entryVal := uvarintAt ht.File.Buf (a + 11)
    if ht.File.Buf a = ENTRY_VALID then
      if entryKey = key ∧ entryVal = val then some (invalidateEntry ht a)
      else if entry + 1 = ht.PerBucket then
        match ht.nextBucket bucket with
        | 0 => some ht
        | next => removeGo ht key val fuel next 0
      else removeGo ht key val fuel bucket (entry + 1)
    else if entryKey = 0 ∧ entryVal = 0 then some ht
    else if entry + 1 = ht.PerBucket then
      match ht.nextBucket bucket with
      | 0 => some ht
      | next => removeGo ht key val fuel next 0
    else removeGo ht key val fuel bucket (entry + 1)

/-- `Remove(key, val)`. -/
def HashTable.Remove (ht : HashTable) (key val : Nat) : Option HashTable :=
  removeGo ht key val (scanFuel ht) (ht.hashKey key) 0

/-- The head loop of `OpenHash`: walk the chain of every initial bucket and
record the largest one-past-the-end bucket number not exceeding the
tentative `NumBuckets`. -/
def headLoopGo (ht : HashTable) : Nat → Nat → Nat → Nat
  | 0, _, longest => longest
  | fuel + 1, i, longest =>
    let last := ht.lastBucket i
    let longest2 := if longest < last + 1 ∧ last + 1 ≤ ht.NumBuckets then last + 1 else longest
    headLoopGo ht fuel (i + 1) longest2

/-- `OpenHash` after `Open` returned `file` (hash.go lines 39-70): recover
`NumBuckets` from the longest bucket chain and set
`UsedSize = NumBuckets * BucketSize`, growing the file when that exceeds its
size. -/
def openHashFile (hashBits perBucket : Nat) (file : File) : HashTable :=
  let bucketSize := BUCKET_HEADER_SIZE + ENTRY_SIZE * perBucket
  let file1 := { file with UsedSize := file.Size }
  let initialBuckets := 2 ^ hashBits
  let ht0 : HashTable :=
    { File := file1, BucketSize := bucketSize, HashBits := hashBits, PerBucket := perBucket,
      NumBuckets := file1.Size / bucketSize, InitialBuckets := initialBuckets }
  let longest := headLoopGo ht0 initialBuckets 0 initialBuckets
  let ht1 : HashTable := { ht0 with NumBuckets := longest }
  let usedSize := ht1.NumBuckets * bucketSize
  let ht2 : HashTable :=
    if ht1.File.Size < usedSize then
      let f2 := { ht1.File with UsedSize := ht1.File.Size }
      { ht1 with
        File := f2.CheckSizeAndEnsure (((usedSize - ht1.File.Size) / bucketSize + 1) * bucketSize) }
    else ht1
  { ht2 with File := { ht2.File with UsedSize := usedSize } }

/-- `OpenHash(name, hashBits, perBucket)` on a fresh (nonexistent or empty)
file: the parameter guard, then `Open` with growth `HASH_TABLE_GROWTH`, then
the bucket recovery. -/
def OpenHash (hashBits perBucket : Nat) : Option HashTable :=
  if hashBits < 2 ∨ perBucket < 2 then none
  else some (openHashFile hashBits perBucket (openEmptyFile HASH_TABLE_GROWTH))

/-- `OpenHash` on a fresh file, parameters assumed valid. -/
def openFresh (hashBits perBucket : Nat) : HashTable :=
  openHashFile hashBits perBucket (openEmptyFile HASH_TABLE_GROWTH)

/-- Close a table and `OpenHash` its on-disk file again: `Open` maps the
existing content and recovers a tentative `UsedSize` by binary search (which
`OpenHash` immediately overwrites), then the bucket recovery runs on the
mapped content. -/
def reopenHash (content : Nat → Nat) (len hashBits perBucket : Nat) : Option HashTable :=
  (openFileExisting content len HASH_TABLE_GROWTH).map (openHashFile hashBits perBucket)

/-! ### Derived observers and spec-side definitions -/

/-- Flag byte of entry `e` of bucket `b`. -/
def slotFlag (ht : HashTable) (b e : Nat) : Nat := ht.File.Buf (ht.entryAddr b e)

/-- Decoded stored key of entry `e` of bucket `b`. -/
def slotKey (ht : HashTable) (b e : Nat) : Nat := uvarintAt ht.File.Buf (ht.entryAddr b e + 1)

/-- Decoded stored value of entry `e` of bucket `b`. -/
def slotVal (ht : HashTable) (b e : Nat) : Nat := uvarintAt ht.File.Buf (ht.entryAddr b e + 11)

/-- Decoded `next` header of bucket `b`. -/
def headerOf (ht : HashTable) (b : Nat) : Nat := uvarintAt ht.File.Buf (b * ht.BucketSize)

/-- The always-true filter of the claims. -/
def alwaysTrue : Nat → Nat → Bool := fun _ _ => true

/-- The size invariant of the specification:
`usedSize == numBuckets × bucketSize`. -/
def SizeInv (ht : HashTable) : Prop :=
  ht.File.UsedSize = ht.NumBuckets * ht.BucketSize

/-- `nextBucket` as the specification words it: decode the 10-byte varint
header of `b` and return 0 at end of chain (`next = 0`), on a loop
(`next ≤ b`), or on an out-of-range reference (`next ≥ numBuckets` or
`next < initialBuckets`), and `next` itself otherwise. -/
def specNextBucket (ht : HashTable) (b : Nat) : Nat :=
  let next := headerOf ht b
  if next = 0 then 0
  else if next ≤ b then 0
  else if ht.NumBuckets ≤ next ∨ next < ht.InitialBuckets then 0
  else next

/-- A 10-byte varint field holds exactly the canonical varint bytes of `x`
(whatever follows them in the field is ignored by decoding). -/
def FieldIs (buf : Nat → Nat) (addr x : Nat) : Prop :=
  ∀ j, j < (putUvarintBytes x).length → buf (addr + j) = (putUvarintBytes x).getD j 0

/-- Addresses of the entries of bucket `b` from entry `e` on, in scan
order. -/
def slotsOfBucketFrom (ht : HashTable) (b e : Nat) : List Nat :=
  (List.range' e (ht.PerBucket - e)).map fun j => ht.entryAddr b j

/-- Addresses of all entries of the buckets `bs`, in scan order. -/
def slotsOfChain (ht : HashTable) (bs : List Nat) : List Nat :=
  (bs.map fun b => slotsOfBucketFrom ht b 0).flatten

/-- Addresses scanned from position (bucket `b`, entry `e`) with the
remaining chain `bs`. -/
def slotsFrom (ht : HashTable) (b e : Nat) (bs : List Nat) : List Nat :=
  slotsOfBucketFrom ht b e ++ slotsOfChain ht bs

/-- A well-formed bucket chain: strictly increasing bucket numbers below
`NumBuckets`, overflow buckets at or above `InitialBuckets`, consecutive
buckets linked by their decoded headers, and the last header zero. -/
inductive ChainOK (ht : HashTable) : List Nat → Prop
  | last (b : Nat) (hb : b < ht.NumBuckets) (h0 : headerOf ht b = 0) : ChainOK ht [b]
  | cons (b b' : Nat) (bs : List Nat) (hlink : headerOf ht b = b') (hlt : b < b')
      (hib : ht.InitialBuckets ≤ b') (hrest : ChainOK ht (b' :: bs)) :
      ChainOK ht (b :: b' :: bs)

/-- The pairs `l` are stored in the slots `addrs` in order: a prefix of
valid entries holding the canonical encodings of the pairs, followed by
never-written (all-zero) slots. -/
inductive StoredOK (ht : HashTable) : List Nat → List (Nat × Nat) → Prop
  | nil (addrs : List Nat) (hz : ∀ a ∈ addrs, ∀ j, j < 21 → ht.File.Buf (a + j) = 0) :
      StoredOK ht addrs []
  | cons (a : Nat) (addrs : List Nat) (k v : Nat) (l : List (Nat × Nat))
      (hflag : ht.File.Buf a = ENTRY_VALID)
      (hk : FieldIs ht.File.Buf (a + 1) k) (hv : FieldIs ht.File.Buf (a + 11) v)
      (hkb : k < 2 ^ 64) (hvb : v < 2 ^ 64)
      (hrest : StoredOK ht addrs l) : StoredOK ht (a :: addrs) ((k, v) :: l)

/-- Successive slot addresses are at least one entry (21 bytes) apart, so
the 21-byte slots are pairwise disjoint. -/
inductive SlotsSep : List Nat → Prop
  | nil : SlotsSep []
  | single (a : Nat) : SlotsSep [a]
  | cons (a b : Nat) (t : List Nat) (hab : a + 21 ≤ b) (hrest : SlotsSep (b :: t)) :
      SlotsSep (a :: b :: t)

/-- The representation invariant tying a table to its abstract contents
`m : head ↦ stored pairs in insertion order`, via a choice of bucket
chains. -/
structure RepWith (ht : HashTable) (chains : Nat → List Nat)
    (m : Nat → List (Nat × Nat)) : Prop where
  pb_pos : 1 ≤ ht.PerBucket
  bucketSize_eq : ht.BucketSize = BUCKET_HEADER_SIZE + ENTRY_SIZE * ht.PerBucket
  ib_eq : ht.InitialBuckets = 2 ^ ht.HashBits
  ib_le : ht.InitialBuckets ≤ ht.NumBuckets
  used_eq : ht.File.UsedSize = ht.NumBuckets * ht.BucketSize
  used_le_size : ht.File.UsedSize ≤ ht.File.Size
  size_eq_filelen : ht.File.Size = ht.File.FileLen
  growth_eq : ht.File.Growth = HASH_TABLE_GROWTH
  zero_tail : ∀ i, ht.File.UsedSize ≤ i → ht.File.Buf i = 0
  chain_head : ∀ h, h < ht.InitialBuckets → (chains h).head? = some h
  chain_ok : ∀ h, h < ht.InitialBuckets → ChainOK ht (chains h)
  chain_disj : ∀ h h', h < ht.InitialBuckets → h' < ht.InitialBuckets → h ≠ h' →
      ∀ b, b ∈ chains h → b ∈ chains h' → False
  stored : ∀ h, h < ht.InitialBuckets → StoredOK ht (slotsOfChain ht (chains h)) (m h)

/-- The representation invariant, with the chains existential. -/
def Rep (ht : HashTable) (m : Nat → List (Nat × Nat)) : Prop :=
  ∃ chains, RepWith ht chains m

/-- A sequence of `Put`s, as the claims run them. -/
def runPuts (ht : HashTable) (ps : List (Nat × Nat)) : Option HashTable :=
  ps.foldlM (fun h p => h.Put p.1 p.2) ht

/-- The pairs of `ps` whose key masks to head `h` under `hashBits` bits, in
order. -/
def chainModel (hashBits : Nat) (ps : List (Nat × Nat)) (h : Nat) : List (Nat × Nat) :=
  ps.filter fun p => p.1 &&& ((1 <<< hashBits) - 1) = h

/-- The claim's reading of `Remove(key, val)`: scan the chain of `key` in
bucket order and entry order and name the flag address of the first valid
entry whose stored key equals `key` and stored value equals `val`; report no
target (`some none`) when a never-written sentinel or the end of the chain
is reached first.  (`none` is fuel exhaustion, as in `removeGo`.) -/
def removeTargetGo (ht : HashTable) (key val : Nat) : Nat → Nat → Nat → Option (Option Nat)
  | 0, _, _ => none
  | fuel + 1, bucket, entry =>
    let a := ht.entryAddr bucket entry
    let entryKey := uvarintAt ht.File.Buf (a + 1)
    let entryVal := uvarintAt ht.File.Buf (a + 11)
    if ht.File.Buf a = ENTRY_VALID then
      if entryKey = key ∧ entryVal = val then some (some a)
      else if entry + 1 = ht.PerBucket then
        match ht.nextBucket bucket with
        | 0 => some none
        | next => removeTargetGo ht key val fuel next 0
      else removeTargetGo ht key val fuel bucket (entry + 1)
    else if entryKey = 0 ∧ entryVal = 0 then some none
    else if entry + 1 = ht.PerBucket then
      match ht.nextBucket bucket with
      | 0 => some none
      | next => removeTargetGo ht key val fuel next 0
    else removeTargetGo ht key val fuel bucket (entry + 1)

/-- The flag address `Remove(key, val)` flips, if any. -/
def removeTarget (ht : HashTable) (key val : Nat) : Option (Option Nat) :=
  removeTargetGo ht key val (scanFuel ht) (ht.hashKey key) 0

/-- The table after `Put(0,100); Put(16,200)` on a fresh `OpenHash(_, 4, 2)`. -/
def scenario2a : Option HashTable :=
  ((openFresh 4 2).Put 0 100).bind fun h => h.Put 16 200

/-- The table after `Put(0,100); Put(16,200); Put(32,300)` on a fresh
`OpenHash(_, 4, 2)` (scenario 2 of the specification). -/
def scenario2 : Option HashTable :=
  scenario2a.bind fun h => h.Put 32 300

/-- Scenario 2's table closed and reopened with `OpenHash(name, 4, 2)`. -/
def scenario2Reopened : Option HashTable :=
  scenario2.bind fun h => reopenHash h.File.Buf h.File.Size 4 2

/-! ### Theorems -/

/-! #### Varint lemmas -/

theorem writeBytes_eq_of_lt (buf : Nat → Nat) (bs : List Nat) :
    ∀ (addr i : Nat), i < addr → writeBytes buf addr bs i = buf i := by
  induction bs with
  | nil => intro addr i _; rfl
  | cons b bs ih =>
    intro addr i hi
    simp only [writeBytes]
    rw [if_neg (by omega)]
    exact ih (addr + 1) i (by omega)

theorem writeBytes_eq_of_ge (buf : Nat → Nat) (bs : List Nat) :
    ∀ (addr i : Nat), addr + bs.length ≤ i → writeBytes buf addr bs i = buf i := by
  induction bs with
  | nil => intro addr i _; rfl
  | cons b bs ih =>
    intro addr i hi
    simp only [List.length_cons] at hi
    simp only [writeBytes]
    rw [if_neg (by omega)]
    exact ih (addr + 1) i (by omega)

theorem writeBytes_get (buf : Nat → Nat) (bs : List Nat) :
    ∀ (addr j : Nat), j < bs.length → writeBytes buf addr bs (addr + j) = bs.getD j 0 := by
  induction bs with
  | nil => intro addr j hj; simp at hj
  | cons b bs ih =>
    intro addr j hj
    simp only [writeBytes]
    cases j with
    | zero => simp
    | succ j =>
      rw [if_neg (by omega)]
      have h := ih (addr + 1) j (by simpa using hj)
      rw [show addr + (j + 1) = addr + 1 + j from by omega]
      rw [h, List.getD_cons_succ]

theorem putUvarintAux_length (fuel : Nat) :
    ∀ (d x : Nat), x < 2 * 128 ^ fuel → (putUvarintAux (fuel + d) x).length ≤ fuel + 1 := by
  induction fuel with
  | zero =>
    intro d x hx
    have h2 : x < 2 := by simpa using hx
    cases d with
    | zero => simp [putUvarintAux]
    | succ d =>
      have : x < 128 := by omega
      simp [putUvarintAux, this]
  | succ fuel ih =>
    intro d x hx
    rw [show fuel + 1 + d = (fuel + d) + 1 from by omega]
    simp only [putUvarintAux]
    by_cases h : x < 128
    · simp [h]
    · rw [if_neg h]
      have hx' : x / 128 < 2 * 128 ^ fuel := by
        have hlt : x < 2 * 128 ^ fuel * 128 := by
          have := hx
          rw [pow_succ] at this
          calc x < 2 * (128 ^ fuel * 128) := this
            _ = 2 * 128 ^ fuel * 128 := by ring
        exact (Nat.div_lt_iff_lt_mul (by norm_num)).mpr hlt
      simpa using Nat.succ_le_succ (ih d (x / 128) hx')

theorem putUvarintBytes_length (x : Nat) (hx : x < 2 ^ 64) :
    (putUvarintBytes x).length ≤ 10 := by
  have h : x < 2 * 128 ^ 9 := by
    calc x < 2 ^ 64 := hx
      _ = 2 * 128 ^ 9 := by norm_num
  exact putUvarintAux_length 9 1 x h

theorem lor_shiftLeft_eq_add (x y s : Nat) (h : x < 2 ^ s) :
    x ||| (y <<< s) = x + y * 2 ^ s := by
  have hrw : x + y * 2 ^ s = 2 ^ s * y + x := by ring
  rw [hrw]
  apply Nat.eq_of_testBit_eq
  intro i
  rw [Nat.testBit_lor, Nat.testBit_shiftLeft, Nat.testBit_mul_pow_two_add y h i]
  rcases Nat.lt_or_ge i s with hi | hi
  · simp [Nat.not_le.mpr hi, hi]
  · simp [hi, Nat.not_lt.mpr hi,
      Nat.testBit_lt_two_pow (lt_of_lt_of_le h (Nat.pow_le_pow_right (by omega) hi))]

theorem uvarintGo_succ (buf : Nat → Nat) (addr rem i x s : Nat) :
    uvarintGo buf addr (rem + 1) i x s =
      if buf (addr + i) < 128 then
        (if i = 9 ∧ 1 < buf (addr + i) then 0 else x ||| (buf (addr + i) <<< s))
      else uvarintGo buf addr rem (i + 1) (x ||| ((buf (addr + i) % 128) <<< s)) (s + 7) := rfl

theorem uvarintGo_decode (fuelE : Nat) :
    ∀ (y i x s : Nat) (buf : Nat → Nat) (addr : Nat),
      y < 2 * 128 ^ (9 - i) → i ≤ 9 → x < 2 ^ s → 9 - i ≤ fuelE →
      (∀ j, j < (putUvarintAux fuelE y).length →
        buf (addr + i + j) = (putUvarintAux fuelE y).getD j 0) →
      uvarintGo buf addr (10 - i) i x s = x + y * 2 ^ s := by
  induction fuelE with
  | zero =>
    intro y i x s buf addr hy hi hx hfuel hbytes
    have hi9 : i = 9 := by omega
    subst hi9
    have hy2 : y < 2 := by simpa using hy
    have henc : putUvarintAux 0 y = [y] := by
      simp [putUvarintAux, Nat.mod_eq_of_lt (show y < 256 by omega)]
    have hb := hbytes 0 (by simp [henc])
    rw [henc] at hb
    simp only [Nat.add_zero, List.getD_cons_zero] at hb
    rw [show (10 : Nat) - 9 = 0 + 1 from rfl, uvarintGo_succ, hb]
    rw [if_pos (by omega : y < 128), if_neg (by omega : ¬ (9 = 9 ∧ 1 < y))]
    exact lor_shiftLeft_eq_add x y s hx
  | succ fuelE ih =>
    intro y i x s buf addr hy hi hx hfuel hbytes
    rw [show 10 - i = (9 - i) + 1 from by omega, uvarintGo_succ]
    by_cases hy128 : y < 128
    · have henc : putUvarintAux (fuelE + 1) y = [y] := by simp [putUvarintAux, hy128]
      have hb := hbytes 0 (by simp [henc])
      rw [henc] at hb
      simp only [Nat.add_zero, List.getD_cons_zero] at hb
      rw [hb, if_pos hy128]
      have hno : ¬ (i = 9 ∧ 1 < y) := by
        rintro ⟨hi9, hy1⟩
        subst hi9
        simp only [Nat.sub_self, pow_zero, Nat.mul_one] at hy
        omega
      rw [if_neg hno]
      exact lor_shiftLeft_eq_add x y s hx
    · have henc : putUvarintAux (fuelE + 1) y =
          (y % 128 + 128) :: putUvarintAux fuelE (y / 128) := by
        simp [putUvarintAux, hy128]
      have hb := hbytes 0 (by simp [henc])
      rw [henc] at hb
      simp only [Nat.add_zero, List.getD_cons_zero] at hb
      rw [hb, if_neg (by omega : ¬ y % 128 + 128 < 128)]
      have hmod : (y % 128 + 128) % 128 = y % 128 := by omega
      rw [hmod]
      have hile : i + 1 ≤ 9 := by
        by_contra hcon
        have hi9 : i = 9 := by omega
        subst hi9
        simp only [Nat.sub_self, pow_zero, Nat.mul_one] at hy
        omega
      have hlor : x ||| ((y % 128) <<< s) = x + y % 128 * 2 ^ s :=
        lor_shiftLeft_eq_add _ _ _ hx
      have hpow : (2 : Nat) ^ (s + 7) = 2 ^ s * 128 := by rw [pow_add]; norm_num
      have hx' : x + y % 128 * 2 ^ s < 2 ^ (s + 7) := by
        rw [hpow]
        have h1 : y % 128 < 128 := Nat.mod_lt _ (by norm_num)
        calc x + y % 128 * 2 ^ s < 2 ^ s + y % 128 * 2 ^ s := Nat.add_lt_add_right hx _
          _ = (y % 128 + 1) * 2 ^ s := by ring
          _ ≤ 128 * 2 ^ s := Nat.mul_le_mul_right _ (by omega)
          _ = 2 ^ s * 128 := by ring
      have hy' : y / 128 < 2 * 128 ^ (9 - (i + 1)) := by
        have hlt : y < 2 * 128 ^ (9 - (i + 1)) * 128 := by
          have h9 : 9 - i = (9 - (i + 1)) + 1 := by omega
          rw [h9] at hy
          calc y < 2 * 128 ^ ((9 - (i + 1)) + 1) := hy
            _ = 2 * 128 ^ (9 - (i + 1)) * 128 := by rw [pow_succ]; ring
        exact (Nat.div_lt_iff_lt_mul (by norm_num)).mpr hlt
      have hb' : ∀ j, j < (putUvarintAux fuelE (y / 128)).length →
          buf (addr + (i + 1) + j) = (putUvarintAux fuelE (y / 128)).getD j 0 := by
        intro j hj
        have h := hbytes (j + 1) (by rw [henc]; simpa using Nat.succ_lt_succ hj)
        rw [henc, List.getD_cons_succ] at h
        rw [show addr + (i + 1) + j = addr + i + (j + 1) from by omega]
        exact h
      have hrec := ih (y / 128) (i + 1) (x + y % 128 * 2 ^ s) (s + 7) buf addr hy' hile hx'
        (by omega) hb'
      rw [show (9 : Nat) - i = 10 - (i + 1) from by omega, hlor, hrec]
      have hdm : 128 * (y / 128) + y % 128 = y := Nat.div_add_mod y 128
      rw [hpow]
      calc x + y % 128 * 2 ^ s + y / 128 * (2 ^ s * 128)
          = x + (128 * (y / 128) + y % 128) * 2 ^ s := by ring
        _ = x + y * 2 ^ s := by rw [hdm]

/-- Writing the varint of `y < 2^64` into a 10-byte field and decoding it
gives back `y`, whatever the field held before (decoding stops at the last
varint byte). -/
theorem uvarintAt_roundtrip (buf : Nat → Nat) (addr y : Nat) (hy : y < 2 ^ 64) :
    uvarintAt (writeBytes buf addr (putUvarintBytes y)) addr = y := by
  have h128 : y < 2 * 128 ^ (9 - 0) := by
    calc y < 2 ^ 64 := hy
      _ = 2 * 128 ^ (9 - 0) := by norm_num
  have h := uvarintGo_decode 10 y 0 0 0 (writeBytes buf addr (putUvarintBytes y)) addr h128
    (by omega) (by norm_num) (by omega) ?_
  · simpa [uvarintAt] using h
  · intro j hj
    have h := writeBytes_get buf (putUvarintBytes y) addr j hj
    simpa [putUvarintBytes] using h

theorem uvarintGo_congr (buf1 buf2 : Nat → Nat) (addr : Nat) :
    ∀ (rem i x s : Nat), (∀ j, i ≤ j → j < i + rem → buf1 (addr + j) = buf2 (addr + j)) →
      uvarintGo buf1 addr rem i x s = uvarintGo buf2 addr rem i x s := by
  intro rem
  induction rem with
  | zero => intro i x s _; rfl
  | succ rem ih =>
    intro i x s hagree
    rw [uvarintGo_succ, uvarintGo_succ, hagree i (le_refl _) (by omega)]
    by_cases hb : buf2 (addr + i) < 128
    · rw [if_pos hb, if_pos hb]
    · rw [if_neg hb, if_neg hb]
      exact ih (i + 1) _ _ (fun j hj1 hj2 => hagree j (by omega) (by omega))

/-- `uvarintAt` reads only the 10 bytes of its window. -/
theorem uvarintAt_congr (buf1 buf2 : Nat → Nat) (addr : Nat)
    (h : ∀ j, j < 10 → buf1 (addr + j) = buf2 (addr + j)) :
    uvarintAt buf1 addr = uvarintAt buf2 addr :=
  uvarintGo_congr buf1 buf2 addr 10 0 0 0 (fun j _ hj2 => h j (by omega))

/-- A field whose first byte is zero decodes to zero. -/
theorem uvarintAt_of_first_zero (buf : Nat → Nat) (addr : Nat) (h : buf addr = 0) :
    uvarintAt buf addr = 0 := by
  unfold uvarintAt
  rw [show (10 : Nat) = 9 + 1 from rfl, uvarintGo_succ]
  simp [h]

theorem writeBytes_singleton (buf : Nat → Nat) (a b i : Nat) :
    writeBytes buf a [b] i = if i = a then b else buf i := rfl

theorem putUvarintBytes_zero : putUvarintBytes 0 = [0] := rfl

/-! #### Loop-step lemmas

The fuel-indexed loops unfold one iteration at a time; these equations are
definitional and let proofs step through concrete iterations. -/

theorem putScanGo_succ (ht : HashTable) (key val fuel bucket entry : Nat) :
    putScanGo ht key val (fuel + 1) bucket entry =
      if ht.File.Buf (ht.entryAddr bucket entry) ≠ ENTRY_VALID then
        some (some (writeEntry ht (ht.entryAddr bucket entry) key val))
      else if entry + 1 = ht.PerBucket then
        match ht.nextBucket bucket with
        | 0 => some none
        | next => putScanGo ht key val fuel next 0
      else putScanGo ht key val fuel bucket (entry + 1) := rfl

theorem putFuelGo_succ (fuel : Nat) (ht : HashTable) (key val : Nat) :
    putFuelGo (fuel + 1) ht key val =
      match putScanGo ht key val (scanFuel ht) (ht.hashKey key) 0 with
      | none => none
      | some (some ht2) => some ht2
      | some none => putFuelGo fuel (ht.grow (ht.hashKey key)) key val := rfl

theorem getGo_succ (ht : HashTable) (key limit : Nat) (flt : Nat → Nat → Bool)
    (fuel count bucket entry : Nat) (keys vals : List Nat) :
    getGo ht key limit flt (fuel + 1) count bucket entry keys vals =
      (if ht.File.Buf (ht.entryAddr bucket entry) = ENTRY_VALID then
        if uvarintAt ht.File.Buf (ht.entryAddr bucket entry + 1) = key ∧
            flt (uvarintAt ht.File.Buf (ht.entryAddr bucket entry + 1))
              (uvarintAt ht.File.Buf (ht.entryAddr bucket entry + 11)) then
          if count + 1 = limit then
            some (keys ++ [uvarintAt ht.File.Buf (ht.entryAddr bucket entry + 1)],
              vals ++ [uvarintAt ht.File.Buf (ht.entryAddr bucket entry + 11)])
          else if entry + 1 = ht.PerBucket then
            match ht.nextBucket bucket with
            | 0 => some (keys ++ [uvarintAt ht.File.Buf (ht.entryAddr bucket entry + 1)],
                vals ++ [uvarintAt ht.File.Buf (ht.entryAddr bucket entry + 11)])
            | next => getGo ht key limit flt fuel (count + 1) next 0
                (keys ++ [uvarintAt ht.File.Buf (ht.entryAddr bucket entry + 1)])
                (vals ++ [uvarintAt ht.File.Buf (ht.entryAddr bucket entry + 11)])
          else getGo ht key limit flt fuel (count + 1) bucket (entry + 1)
            (keys ++ [uvarintAt ht.File.Buf (ht.entryAddr bucket entry + 1)])
            (vals ++ [uvarintAt ht.File.Buf (ht.entryAddr bucket entry + 11)])
        else if entry + 1 = ht.PerBucket then
          match ht.nextBucket bucket with
          | 0 => some (keys, vals)
          | next => getGo ht key limit flt fuel count next 0 keys vals
        else getGo ht key limit flt fuel count bucket (entry + 1) keys vals
      else if uvarintAt ht.File.Buf (ht.entryAddr bucket entry + 1) = 0 ∧
          uvarintAt ht.File.Buf (ht.entryAddr bucket entry + 11) = 0 then
        some (keys, vals)
      else if entry + 1 = ht.PerBucket then
        match ht.nextBucket bucket with
        | 0 => some (keys, vals)
        | next => getGo ht key limit flt fuel count next 0 keys vals
      else getGo ht key limit flt fuel count bucket (entry + 1) keys vals) := rfl

theorem removeGo_succ (ht : HashTable) (key val fuel bucket entry : Nat) :
    removeGo ht key val (fuel + 1) bucket entry =
      (if ht.File.Buf (ht.entryAddr bucket entry) = ENTRY_VALID then
        if uvarintAt ht.File.Buf (ht.entryAddr bucket entry + 1) = key ∧
            uvarintAt ht.File.Buf (ht.entryAddr bucket entry + 11) = val then
          some (invalidateEntry ht (ht.entryAddr bucket entry))
        else if entry + 1 = ht.PerBucket then
          match ht.nextBucket bucket with
          | 0 => some ht
          | next => removeGo ht key val fuel next 0
        else removeGo ht key val fuel bucket (entry + 1)
      else if uvarintAt ht.File.Buf (ht.entryAddr bucket entry + 1) = 0 ∧
          uvarintAt ht.File.Buf (ht.entryAddr bucket entry + 11) = 0 then
        some ht
      else if entry + 1 = ht.PerBucket then
        match ht.nextBucket bucket with
        | 0 => some ht
        | next => removeGo ht key val fuel next 0
      else removeGo ht key val fuel bucket (entry + 1)) := rfl

/-! #### Structural lemmas about opening a table -/

theorem ensureGo_buf_zero (more : Nat) : ∀ (fuel : Nat) (f : File), (∀ i, f.Buf i = 0) →
    ∀ i, (ensureGo fuel f more).Buf i = 0 := by
  intro fuel
  induction fuel with
  | zero => intro f h i; exact h i
  | succ fuel ih =>
    intro f h i
    simp only [ensureGo]
    split
    · exact h i
    · exact ih (fileGrowStep f) (fun j => by simp [fileGrowStep, h j]) i

theorem openEmptyFile_buf (growth i : Nat) : (openEmptyFile growth).Buf i = 0 :=
  ensureGo_buf_zero growth _ _ (fun _ => rfl) i

theorem openHashFile_buf (hashBits perBucket : Nat) (f : File) (h : ∀ i, f.Buf i = 0) :
    ∀ i, (openHashFile hashBits perBucket f).File.Buf i = 0 := by
  intro i
  simp only [openHashFile, File.CheckSizeAndEnsure]
  split
  · refine ensureGo_buf_zero _ _ _ (fun j => ?_) i
    exact h j
  · exact h i

theorem openHashFile_PerBucket (hashBits perBucket : Nat) (f : File) :
    (openHashFile hashBits perBucket f).PerBucket = perBucket := by
  simp only [openHashFile]
  split <;> rfl

theorem openHashFile_HashBits (hashBits perBucket : Nat) (f : File) :
    (openHashFile hashBits perBucket f).HashBits = hashBits := by
  simp only [openHashFile]
  split <;> rfl

theorem openHashFile_BucketSize (hashBits perBucket : Nat) (f : File) :
    (openHashFile hashBits perBucket f).BucketSize = BUCKET_HEADER_SIZE + ENTRY_SIZE * perBucket := by
  simp only [openHashFile]
  split <;> rfl

theorem openHashFile_InitialBuckets (hashBits perBucket : Nat) (f : File) :
    (openHashFile hashBits perBucket f).InitialBuckets = 2 ^ hashBits := by
  simp only [openHashFile]
  split <;> rfl

theorem hashKey_zero (ht : HashTable) : ht.hashKey 0 = 0 := by
  simp [HashTable.hashKey]

theorem two_le_scanFuel (ht : HashTable) : 2 ≤ scanFuel ht := by
  have h := Nat.mul_pos (show 0 < ht.NumBuckets + 2 by omega) (show 0 < ht.PerBucket + 1 by omega)
  simp only [scanFuel]
  omega

/-- **C7**: `OpenHash` on a nonexistent (hence initially empty) file with
`hashBits = 4, perBucket = 2` produces a file of exactly 1 MiB (one growth
increment, both as accounted in `Size` and as bytes physically appended),
with `numBuckets = 16 = 2^4` (every chain walk over the zeroed file ends at
its head) and `usedSize = 16 × 52 = 832` (`bucketSize = 10 + 21 × 2 = 52`). -/
theorem c7_open_fresh :
    (openFresh 4 2).File.FileLen = 1048576 ∧
    (openFresh 4 2).File.Size = 1048576 ∧
    (openFresh 4 2).BucketSize = 52 ∧
    (openFresh 4 2).NumBuckets = 16 ∧
    (openFresh 4 2).InitialBuckets = 16 ∧
    (openFresh 4 2).File.UsedSize = 832 := by
  decide

/-- **C3**: on a fresh table opened with `hashBits = 4, perBucket = 2`,
`Put(0,100), Put(16,200)` fill head bucket 0's two entries with `(0,100)`
and `(16,200)` (still `numBuckets = 16`); the third `Put(32,300)` overflows,
grows a bucket at index 16, writes 16 into head 0's next header, and stores
`(32,300)` at entry 0 of bucket 16; afterwards `numBuckets = 17`. -/
theorem c3_overflow_grow :
    (scenario2a.map fun h =>
        [slotFlag h 0 0, slotKey h 0 0, slotVal h 0 0,
         slotFlag h 0 1, slotKey h 0 1, slotVal h 0 1, h.NumBuckets])
      = some [ENTRY_VALID, 0, 100, ENTRY_VALID, 16, 200, 16] ∧
    (scenario2.map fun h =>
        [headerOf h 0, slotFlag h 16 0, slotKey h 16 0, slotVal h 16 0,
         h.NumBuckets, h.File.UsedSize])
      = some [16, ENTRY_VALID, 32, 300, 17, 884] := by
  decide

/-- **C2**, counterexample: reopening the scenario-2 file recovers the table,
but `Get(0, 0, always-true)` does **not** yield the three pairs
`(0,100), (16,200), (32,300)`: `Get` compares the full stored key with the
query key, so it returns only `(0,100)`. -/
theorem c2_get_three_pairs_cex :
    ¬ (scenario2Reopened.bind fun h => h.Get 0 0 alwaysTrue)
        = some ([0, 16, 32], [100, 200, 300]) := by
  decide

/-- **C2**, amended: reopening the scenario-2 file with `OpenHash(name, 4, 2)`
recovers `numBuckets = 17` and `usedSize = 17 × 52 = 884` from the on-disk
chain walk, and on the reopened table `Get(0, 0, always-true)` yields exactly
the pair `(0,100)`, while the two pairs stored under keys 16 and 32 are
recovered by `Get(16, …)` and `Get(32, …)`. -/
theorem c2_reopen :
    (scenario2Reopened.map fun h => (h.NumBuckets, h.File.UsedSize)) = some (17, 884) ∧
    (scenario2Reopened.bind fun h => h.Get 0 0 alwaysTrue) = some ([0], [100]) ∧
    (scenario2Reopened.bind fun h => h.Get 16 0 alwaysTrue) = some ([16], [200]) ∧
    (scenario2Reopened.bind fun h => h.Get 32 0 alwaysTrue) = some ([32], [300]) := by
  decide

/-- **C6**: for every bucket `b`, `nextBucket b` decodes the 10-byte varint
header at `b × bucketSize` and returns 0 when the decoded next is 0 (end of
chain), 0 when `next ≤ b` (corruption), 0 when `next ≥ numBuckets` or
`next < initialBuckets` (corruption), and `next` itself otherwise; the
return type carries no error, so corruption is never surfaced to the
caller. -/
theorem c6_nextBucket_spec (ht : HashTable) (b : Nat) :
    ht.nextBucket b = specNextBucket ht b := by
  simp only [HashTable.nextBucket, specNextBucket, headerOf]
  by_cases hb : ht.NumBuckets ≤ b
  · by_cases h0 : uvarintAt ht.File.Buf (b * ht.BucketSize) = 0
    · simp [hb, h0]
    · by_cases hle : uvarintAt ht.File.Buf (b * ht.BucketSize) ≤ b
      · simp [hb, h0, hle]
      · have hor : ht.NumBuckets ≤ uvarintAt ht.File.Buf (b * ht.BucketSize) ∨
            uvarintAt ht.File.Buf (b * ht.BucketSize) < ht.InitialBuckets :=
          Or.inl (le_trans hb (le_of_not_le hle))
        simp [hb, h0, hle, hor]
  · simp [hb]

/-! #### Shape lemmas for the mutating operations -/

theorem ensureGo_UsedSize (more : Nat) : ∀ (fuel : Nat) (f : File),
    (ensureGo fuel f more).UsedSize = f.UsedSize := by
  intro fuel
  induction fuel with
  | zero => intro f; rfl
  | succ fuel ih =>
    intro f
    simp only [ensureGo]
    split
    · rfl
    · exact ih (fileGrowStep f)

theorem grow_UsedSize (ht : HashTable) (b : Nat) :
    (ht.grow b).File.UsedSize = ht.File.UsedSize + ht.BucketSize := by
  simp only [HashTable.grow, File.CheckSizeAndEnsure]
  split
  · rfl
  · simp [ensureGo_UsedSize]

theorem grow_NumBuckets (ht : HashTable) (b : Nat) :
    (ht.grow b).NumBuckets = ht.NumBuckets + 1 := rfl

theorem grow_BucketSize (ht : HashTable) (b : Nat) :
    (ht.grow b).BucketSize = ht.BucketSize := rfl

theorem grow_PerBucket (ht : HashTable) (b : Nat) :
    (ht.grow b).PerBucket = ht.PerBucket := rfl

theorem grow_HashBits (ht : HashTable) (b : Nat) :
    (ht.grow b).HashBits = ht.HashBits := rfl

theorem grow_InitialBuckets (ht : HashTable) (b : Nat) :
    (ht.grow b).InitialBuckets = ht.InitialBuckets := rfl

/-- A successful inner `Put` scan only performs the three entry stores. -/
theorem putScanGo_write (ht : HashTable) (k v : Nat) : ∀ (fuel b e : Nat) (ht2 : HashTable),
    putScanGo ht k v fuel b e = some (some ht2) → ∃ a, ht2 = writeEntry ht a k v := by
  intro fuel
  induction fuel with
  | zero =>
    intro b e ht2 h
    simp [putScanGo] at h
  | succ fuel ih =>
    intro b e ht2 h
    rw [putScanGo_succ] at h
    split at h
    · exact ⟨_, (Option.some.inj (Option.some.inj h)).symm⟩
    · split at h
      · split at h
        · simp at h
        · exact ih _ _ _ h
      · exact ih _ _ _ h

/-- A completed `Remove` scan returns the table unchanged or with exactly one
flag byte invalidated. -/
theorem removeGo_shape (ht : HashTable) (k v : Nat) : ∀ (fuel b e : Nat) (ht2 : HashTable),
    removeGo ht k v fuel b e = some ht2 → ht2 = ht ∨ ∃ a, ht2 = invalidateEntry ht a := by
  intro fuel
  induction fuel with
  | zero =>
    intro b e ht2 h
    simp [removeGo] at h
  | succ fuel ih =>
    intro b e ht2 h
    rw [removeGo_succ] at h
    split at h
    · split at h
      · exact Or.inr ⟨_, (Option.some.inj h).symm⟩
      · split at h
        · split at h
          · exact Or.inl (Option.some.inj h).symm
          · exact ih _ _ _ h
        · exact ih _ _ _ h
    · split at h
      · exact Or.inl (Option.some.inj h).symm
      · split at h
        · split at h
          · exact Or.inl (Option.some.inj h).symm
          · exact ih _ _ _ h
        · exact ih _ _ _ h

theorem removeTargetGo_succ (ht : HashTable) (key val fuel bucket entry : Nat) :
    removeTargetGo ht key val (fuel + 1) bucket entry =
      (if ht.File.Buf (ht.entryAddr bucket entry) = ENTRY_VALID then
        if uvarintAt ht.File.Buf (ht.entryAddr bucket entry + 1) = key ∧
            uvarintAt ht.File.Buf (ht.entryAddr bucket entry + 11) = val then
          some (some (ht.entryAddr bucket entry))
        else if entry + 1 = ht.PerBucket then
          match ht.nextBucket bucket with
          | 0 => some none
          | next => removeTargetGo ht key val fuel next 0
        else removeTargetGo ht key val fuel bucket (entry + 1)
      else if uvarintAt ht.File.Buf (ht.entryAddr bucket entry + 1) = 0 ∧
          uvarintAt ht.File.Buf (ht.entryAddr bucket entry + 11) = 0 then
        some none
      else if entry + 1 = ht.PerBucket then
        match ht.nextBucket bucket with
        | 0 => some none
        | next => removeTargetGo ht key val fuel next 0
      else removeTargetGo ht key val fuel bucket (entry + 1)) := rfl

/-- The `Remove` scan computes exactly the claim's target: it returns the
table unchanged when there is no target and otherwise flips the target's
flag byte. -/
theorem removeGo_eq_target (ht : HashTable) (key val : Nat) : ∀ (fuel b e : Nat),
    removeGo ht key val fuel b e =
      (removeTargetGo ht key val fuel b e).map
        (fun t => match t with | none => ht | some a => invalidateEntry ht a) := by
  intro fuel
  induction fuel with
  | zero => intro b e; rfl
  | succ fuel ih =>
    intro b e
    rw [removeGo_succ, removeTargetGo_succ]
    by_cases hflag : ht.File.Buf (ht.entryAddr b e) = ENTRY_VALID
    · rw [if_pos hflag, if_pos hflag]
      by_cases hm : uvarintAt ht.File.Buf (ht.entryAddr b e + 1) = key ∧
          uvarintAt ht.File.Buf (ht.entryAddr b e + 11) = val
      · rw [if_pos hm, if_pos hm]; rfl
      · rw [if_neg hm, if_neg hm]
        by_cases hl : e + 1 = ht.PerBucket
        · rw [if_pos hl, if_pos hl]
          cases ht.nextBucket b with
          | zero => rfl
          | succ n => exact ih (n + 1) 0
        · rw [if_neg hl, if_neg hl]
          exact ih b (e + 1)
    · rw [if_neg hflag, if_neg hflag]
      by_cases hs : uvarintAt ht.File.Buf (ht.entryAddr b e + 1) = 0 ∧
          uvarintAt ht.File.Buf (ht.entryAddr b e + 11) = 0
      · rw [if_pos hs, if_pos hs]; rfl
      · rw [if_neg hs, if_neg hs]
        by_cases hl : e + 1 = ht.PerBucket
        · rw [if_pos hl, if_pos hl]
          cases ht.nextBucket b with
          | zero => rfl
          | succ n => exact ih (n + 1) 0
        · rw [if_neg hl, if_neg hl]
          exact ih b (e + 1)

/-- The target named by the claim's scan is a valid entry storing
`(key, val)`. -/
theorem removeTargetGo_sound (ht : HashTable) (key val : Nat) : ∀ (fuel b e a : Nat),
    removeTargetGo ht key val fuel b e = some (some a) →
    ht.File.Buf a = ENTRY_VALID ∧ uvarintAt ht.File.Buf (a + 1) = key ∧
      uvarintAt ht.File.Buf (a + 11) = val := by
  intro fuel
  induction fuel with
  | zero =>
    intro b e a h
    simp [removeTargetGo] at h
  | succ fuel ih =>
    intro b e a h
    rw [removeTargetGo_succ] at h
    by_cases hflag : ht.File.Buf (ht.entryAddr b e) = ENTRY_VALID
    · rw [if_pos hflag] at h
      by_cases hm : uvarintAt ht.File.Buf (ht.entryAddr b e + 1) = key ∧
          uvarintAt ht.File.Buf (ht.entryAddr b e + 11) = val
      · rw [if_pos hm] at h
        cases Option.some.inj (Option.some.inj h)
        exact ⟨hflag, hm.1, hm.2⟩
      · rw [if_neg hm] at h
        by_cases hl : e + 1 = ht.PerBucket
        · rw [if_pos hl] at h
          cases hnb : ht.nextBucket b with
          | zero => rw [hnb] at h; simp at h
          | succ n => rw [hnb] at h; exact ih (n + 1) 0 a h
        · rw [if_neg hl] at h
          exact ih b (e + 1) a h
    · rw [if_neg hflag] at h
      by_cases hs : uvarintAt ht.File.Buf (ht.entryAddr b e + 1) = 0 ∧
          uvarintAt ht.File.Buf (ht.entryAddr b e + 11) = 0
      · rw [if_pos hs] at h
        simp at h
      · rw [if_neg hs] at h
        by_cases hl : e + 1 = ht.PerBucket
        · rw [if_pos hl] at h
          cases hnb : ht.nextBucket b with
          | zero => rw [hnb] at h; simp at h
          | succ n => rw [hnb] at h; exact ih (n + 1) 0 a h
        · rw [if_neg hl] at h
          exact ih b (e + 1) a h

/-- `nextBucket` returns 0 or a strictly larger in-range bucket. -/
theorem nextBucket_bounds (ht : HashTable) (b : Nat) :
    ht.nextBucket b = 0 ∨
      (b < ht.nextBucket b ∧ ht.nextBucket b < ht.NumBuckets ∧
        ht.InitialBuckets ≤ ht.nextBucket b) := by
  simp only [HashTable.nextBucket]
  split
  · exact Or.inl rfl
  · split
    · exact Or.inl rfl
    · split
      · exact Or.inl rfl
      · split
        · exact Or.inl rfl
        · next h1 h2 h3 h4 => exact Or.inr ⟨by omega, by omega, by omega⟩

/-- A `Remove` scan started anywhere finishes within the fuel bound given by
the strictly increasing bucket numbers along a chain. -/
theorem removeGo_total (ht : HashTable) (key val : Nat) (hpb : 1 ≤ ht.PerBucket) :
    ∀ (fuel b e : Nat), e < ht.PerBucket →
      (ht.NumBuckets + 1 - b) * ht.PerBucket + (ht.PerBucket - e) < fuel →
      ∃ ht2, removeGo ht key val fuel b e = some ht2 := by
  intro fuel
  induction fuel with
  | zero =>
    intro b e he hm
    omega
  | succ fuel ih =>
    intro b e he hm
    rw [removeGo_succ]
    have hhop : ∀ n, ht.nextBucket b = n + 1 → e + 1 = ht.PerBucket →
        ∃ ht2, removeGo ht key val fuel (n + 1) 0 = some ht2 := by
      intro n hnb hl
      have hb := nextBucket_bounds ht b
      rw [hnb] at hb
      rcases hb with h0 | ⟨hgt, hlt, _⟩
      · omega
      · refine ih (n + 1) 0 hpb ?_
        have h1 : ht.NumBuckets + 1 - (n + 1) + 1 ≤ ht.NumBuckets + 1 - b := by omega
        have h2 : (ht.NumBuckets + 1 - (n + 1) + 1) * ht.PerBucket ≤
            (ht.NumBuckets + 1 - b) * ht.PerBucket := Nat.mul_le_mul_right _ h1
        have h3 : (ht.NumBuckets + 1 - (n + 1) + 1) * ht.PerBucket =
            (ht.NumBuckets + 1 - (n + 1)) * ht.PerBucket + ht.PerBucket := by ring
        omega
    have hcont : e + 1 ≠ ht.PerBucket →
        ∃ ht2, removeGo ht key val fuel b (e + 1) = some ht2 := by
      intro hl
      refine ih b (e + 1) (by omega) (by omega)
    by_cases hflag : ht.File.Buf (ht.entryAddr b e) = ENTRY_VALID
    · rw [if_pos hflag]
      by_cases hmatch : uvarintAt ht.File.Buf (ht.entryAddr b e + 1) = key ∧
          uvarintAt ht.File.Buf (ht.entryAddr b e + 11) = val
      · rw [if_pos hmatch]
        exact ⟨_, rfl⟩
      · rw [if_neg hmatch]
        by_cases hl : e + 1 = ht.PerBucket
        · rw [if_pos hl]
          cases hnb : ht.nextBucket b with
          | zero => exact ⟨ht, rfl⟩
          | succ n => exact hhop n hnb hl
        · rw [if_neg hl]
          exact hcont hl
    · rw [if_neg hflag]
      by_cases hs : uvarintAt ht.File.Buf (ht.entryAddr b e + 1) = 0 ∧
          uvarintAt ht.File.Buf (ht.entryAddr b e + 11) = 0
      · rw [if_pos hs]
        exact ⟨ht, rfl⟩
      · rw [if_neg hs]
        by_cases hl : e + 1 = ht.PerBucket
        · rw [if_pos hl]
          cases hnb : ht.nextBucket b with
          | zero => exact ⟨ht, rfl⟩
          | succ n => exact hhop n hnb hl
        · rw [if_neg hl]
          exact hcont hl

/-- **C8**: on a table with at least one entry per bucket, `Remove(key, val)`
always completes, and either the claim's scan names no target — a
never-written sentinel or the end of the chain is reached before a valid
entry storing `(key, val)` — and the whole table is returned unchanged
(no-op, no error), or it names the flag address `a` of the first such entry,
and the result differs from the input at exactly the one byte `a`, which is
flipped from `ENTRY_VALID` to `ENTRY_INVALID`; in particular at most one
entry is removed per call. -/
theorem c8_remove_frame (ht : HashTable) (key val : Nat) (hpb : 1 ≤ ht.PerBucket) :
    ∃ ht2, ht.Remove key val = some ht2 ∧
      ((removeTarget ht key val = some none ∧ ht2 = ht) ∨
       (∃ a, removeTarget ht key val = some (some a) ∧
         ht.File.Buf a = ENTRY_VALID ∧ uvarintAt ht.File.Buf (a + 1) = key ∧
         uvarintAt ht.File.Buf (a + 11) = val ∧
         ht2.File.Buf a = ENTRY_INVALID ∧
         (∀ i, i ≠ a → ht2.File.Buf i = ht.File.Buf i) ∧
         ht2.File.UsedSize = ht.File.UsedSize ∧ ht2.NumBuckets = ht.NumBuckets)) := by
  have hfuel : (ht.NumBuckets + 1 - ht.hashKey key) * ht.PerBucket +
      (ht.PerBucket - 0) < scanFuel ht := by
    have h1 : ht.NumBuckets + 1 - ht.hashKey key ≤ ht.NumBuckets + 1 := by omega
    have h2 : (ht.NumBuckets + 1 - ht.hashKey key) * ht.PerBucket ≤
        (ht.NumBuckets + 1) * ht.PerBucket := Nat.mul_le_mul_right _ h1
    have h3 : (ht.NumBuckets + 2) * (ht.PerBucket + 1) + 1 =
        (ht.NumBuckets + 1) * ht.PerBucket + ht.PerBucket + ht.NumBuckets + 3 := by ring
    simp only [scanFuel]
    omega
  obtain ⟨ht2, hht2⟩ := removeGo_total ht key val hpb (scanFuel ht) (ht.hashKey key) 0 hpb hfuel
  have hrm : ht.Remove key val = some ht2 := hht2
  refine ⟨ht2, hrm, ?_⟩
  have halign := removeGo_eq_target ht key val (scanFuel ht) (ht.hashKey key) 0
  rw [hht2] at halign
  cases htg : removeTargetGo ht key val (scanFuel ht) (ht.hashKey key) 0 with
  | none => rw [htg] at halign; simp at halign
  | some t =>
    rw [htg] at halign
    cases t with
    | none =>
      refine Or.inl ⟨htg, ?_⟩
      simpa using halign
    | some a =>
      have hsound := removeTargetGo_sound ht key val (scanFuel ht) (ht.hashKey key) 0 a htg
      have hht2a : ht2 = invalidateEntry ht a := by simpa using halign
      subst hht2a
      refine Or.inr ⟨a, htg, hsound.1, hsound.2.1, hsound.2.2, ?_, ?_, rfl, rfl⟩
      · show setByte ht.File.Buf a ENTRY_INVALID a = ENTRY_INVALID
        simp [setByte]
      · intro i hi
        show setByte ht.File.Buf a ENTRY_INVALID i = ht.File.Buf i
        simp [setByte, hi]

/-- Closed instance of C8 on the scenario-2 table reopened parameters:
the fresh `OpenHash(_, 4, 2)` table with `Remove(7, 9)`. -/
theorem c8_remove_frame_witness :
    1 ≤ (openFresh 4 2).PerBucket ∧
    ∃ ht2, (openFresh 4 2).Remove 7 9 = some ht2 ∧
      ((removeTarget (openFresh 4 2) 7 9 = some none ∧ ht2 = openFresh 4 2) ∨
       (∃ a, removeTarget (openFresh 4 2) 7 9 = some (some a) ∧
         (openFresh 4 2).File.Buf a = ENTRY_VALID ∧
         uvarintAt (openFresh 4 2).File.Buf (a + 1) = 7 ∧
         uvarintAt (openFresh 4 2).File.Buf (a + 11) = 9 ∧
         ht2.File.Buf a = ENTRY_INVALID ∧
         (∀ i, i ≠ a → ht2.File.Buf i = (openFresh 4 2).File.Buf i) ∧
         ht2.File.UsedSize = (openFresh 4 2).File.UsedSize ∧
         ht2.NumBuckets = (openFresh 4 2).NumBuckets)) :=
  ⟨by decide, c8_remove_frame (openFresh 4 2) 7 9 (by decide)⟩

/-- **C5**: `numBuckets × bucketSize == usedSize` holds after `OpenHash`
returns (for any underlying file) and is preserved by every operation:
`grow` advances `usedSize` by exactly `bucketSize` in the same step as
incrementing `numBuckets`, `Put` preserves the invariant through any number
of grow-and-retry rounds, and `Remove` changes neither field.  (`Get` and
`GetAll` return lists of keys and values and have no table state to
change.) -/
theorem c5_size_invariant :
    (∀ (hashBits perBucket : Nat) (f : File), SizeInv (openHashFile hashBits perBucket f)) ∧
    (∀ (ht : HashTable) (b : Nat), SizeInv ht →
      SizeInv (ht.grow b) ∧
      (ht.grow b).File.UsedSize = ht.File.UsedSize + ht.BucketSize ∧
      (ht.grow b).NumBuckets = ht.NumBuckets + 1) ∧
    (∀ (fuel : Nat) (ht ht2 : HashTable) (k v : Nat), SizeInv ht →
      putFuelGo fuel ht k v = some ht2 → SizeInv ht2) ∧
    (∀ (ht ht2 : HashTable) (k v : Nat), ht.Remove k v = some ht2 →
      ht2.NumBuckets = ht.NumBuckets ∧ ht2.File.UsedSize = ht.File.UsedSize ∧
      ht2.BucketSize = ht.BucketSize) := by
  have hgrow : ∀ (ht : HashTable) (b : Nat), SizeInv ht → SizeInv (ht.grow b) := by
    intro ht b hinv
    show (ht.grow b).File.UsedSize = (ht.grow b).NumBuckets * (ht.grow b).BucketSize
    rw [grow_UsedSize, grow_NumBuckets, grow_BucketSize, hinv]
    ring
  refine ⟨?_, ?_, ?_, ?_⟩
  · intro hashBits perBucket f
    show (openHashFile hashBits perBucket f).File.UsedSize = _
    simp only [openHashFile]
    split <;> rfl
  · intro ht b hinv
    exact ⟨hgrow ht b hinv, grow_UsedSize ht b, grow_NumBuckets ht b⟩
  · intro fuel
    induction fuel with
    | zero =>
      intro ht ht2 k v hinv h
      simp [putFuelGo] at h
    | succ fuel ih =>
      intro ht ht2 k v hinv h
      rw [putFuelGo_succ] at h
      split at h
      · simp at h
      · next heq =>
        obtain ⟨a, rfl⟩ := putScanGo_write ht k v _ _ _ _ heq
        cases h
        exact hinv
      · exact ih _ _ k v (hgrow ht _ hinv) h
  · intro ht ht2 k v h
    rcases removeGo_shape ht k v _ _ _ _ h with rfl | ⟨a, rfl⟩
    · exact ⟨rfl, rfl, rfl⟩
    · exact ⟨rfl, rfl, rfl⟩

/-- Closed instance of C5: the invariant holds on the fresh table
`OpenHash(_, 4, 2)` and is maintained by a `grow` step. -/
theorem c5_size_invariant_witness :
    SizeInv (openFresh 4 2) ∧ SizeInv ((openFresh 4 2).grow 0) :=
  ⟨c5_size_invariant.1 4 2 (openEmptyFile HASH_TABLE_GROWTH),
   (c5_size_invariant.2.1 (openFresh 4 2) 0 (by unfold SizeInv; decide)).1⟩

/-- **C10**: removing a stored `(0, 0)` pair manufactures a never-written
sentinel that hides later entries of the chain.  On every fresh table
(`hashBits ≥ 2`, `perBucket ≥ 2`), after `Put(0,0)`, `Put(0,v)` with
`v ≠ 0` (landing in head bucket 0 at entries 0 and 1) and `Remove(0,0)`,
the slot of `(0,0)` has an invalid flag and all-zero key and value bytes,
so `Get(0, 0, always-true)` stops at that slot and returns no pairs even
though the valid entry `(0,v)` is still stored after it. -/
theorem c10_tombstone_sentinel (hb pb v : Nat) (hhb : 2 ≤ hb) (hpb : 2 ≤ pb)
    (hv0 : v ≠ 0) (hv : v < 2 ^ 64) :
    ∃ h1 h2 h3 : HashTable,
      (openFresh hb pb).Put 0 0 = some h1 ∧ h1.Put 0 v = some h2 ∧
      h2.Remove 0 0 = some h3 ∧
      (∀ j, j < 21 → h3.File.Buf (h3.entryAddr 0 0 + j) = 0) ∧
      slotFlag h3 0 1 = ENTRY_VALID ∧ slotKey h3 0 1 = 0 ∧ slotVal h3 0 1 = v ∧
      h3.Get 0 0 alwaysTrue = some ([], []) := by
  set F := openFresh hb pb with hF
  have hbufF : ∀ i, F.File.Buf i = 0 := fun i =>
    openHashFile_buf hb pb _ (fun j => openEmptyFile_buf _ j) i
  have hpbF : F.PerBucket = pb := openHashFile_PerBucket hb pb _
  -- first put
  have haddr00 : ∀ ht : HashTable, ht.entryAddr 0 0 = 10 := fun ht => by
    simp [HashTable.entryAddr, BUCKET_HEADER_SIZE]
  have haddr01 : ∀ ht : HashTable, ht.entryAddr 0 1 = 31 := fun ht => by
    norm_num [HashTable.entryAddr, BUCKET_HEADER_SIZE, ENTRY_SIZE]
  have hscanF : putScanGo F 0 0 (scanFuel F) 0 0 = some (some (writeEntry F 10 0 0)) := by
    rw [show scanFuel F = (F.NumBuckets + 2) * (F.PerBucket + 1) + 1 from rfl, putScanGo_succ,
      haddr00 F]
    rw [if_pos (show F.File.Buf 10 ≠ ENTRY_VALID from by rw [hbufF 10]; decide)]
  have hput1 : F.Put 0 0 = some (writeEntry F 10 0 0) := by
    rw [HashTable.Put, show (2 : Nat) = 1 + 1 from rfl, putFuelGo_succ, hashKey_zero, hscanF]
  set h1 := writeEntry F 10 0 0 with hh1
  have hbuf1 : ∀ i, h1.File.Buf i = if i = 10 then 1 else 0 := by
    intro i
    show (bufPutUvarint (bufPutUvarint (setByte F.File.Buf 10 ENTRY_VALID) (10 + 1) 0)
      (10 + 11) 0) i = _
    simp only [bufPutUvarint, putUvarintBytes_zero, writeBytes_singleton, setByte, ENTRY_VALID]
    norm_num
    split_ifs <;> first | rfl | exact hbufF i | omega
  have hpb1 : h1.PerBucket = pb := by rw [hh1]; exact hpbF
  -- second put
  have hb10 : h1.File.Buf 10 = 1 := by rw [hbuf1]; norm_num
  have hb31 : h1.File.Buf 31 = 0 := by rw [hbuf1]; norm_num
  have hscan1 : putScanGo h1 0 v (scanFuel h1) 0 0 = some (some (writeEntry h1 31 0 v)) := by
    obtain ⟨n, hn⟩ := Nat.exists_eq_add_of_le (two_le_scanFuel h1)
    rw [hn, show 2 + n = (n + 1) + 1 from by omega, putScanGo_succ, haddr00 h1]
    rw [if_neg (show ¬ h1.File.Buf 10 ≠ ENTRY_VALID from by rw [hb10]; decide)]
    rw [if_neg (show ¬ 0 + 1 = h1.PerBucket from by rw [hpb1]; omega)]
    rw [putScanGo_succ, haddr01 h1]
    rw [if_pos (show h1.File.Buf 31 ≠ ENTRY_VALID from by rw [hb31]; decide)]
  have hput2 : h1.Put 0 v = some (writeEntry h1 31 0 v) := by
    rw [HashTable.Put, show (2 : Nat) = 1 + 1 from rfl, putFuelGo_succ, hashKey_zero, hscan1]
  set h2 := writeEntry h1 31 0 v with hh2
  -- the buffer of h2 below address 31 is that of h1
  have hbuf2_lt : ∀ i, i < 31 → h2.File.Buf i = h1.File.Buf i := by
    intro i hi
    show (bufPutUvarint (bufPutUvarint (setByte h1.File.Buf 31 ENTRY_VALID) (31 + 1) 0)
      (31 + 11) v) i = _
    simp only [bufPutUvarint, putUvarintBytes_zero]
    rw [writeBytes_eq_of_lt _ _ _ _ (by omega), writeBytes_singleton, if_neg (by omega)]
    simp only [setByte]
    rw [if_neg (by omega : ¬ i = 31)]
  have hb2_31 : h2.File.Buf 31 = 1 := by
    show (bufPutUvarint (bufPutUvarint (setByte h1.File.Buf 31 ENTRY_VALID) (31 + 1) 0)
      (31 + 11) v) 31 = _
    simp only [bufPutUvarint, putUvarintBytes_zero]
    rw [writeBytes_eq_of_lt _ _ _ _ (by omega), writeBytes_singleton, if_neg (by omega)]
    simp [setByte, ENTRY_VALID]
  have hb2_32 : h2.File.Buf 32 = 0 := by
    show (bufPutUvarint (bufPutUvarint (setByte h1.File.Buf 31 ENTRY_VALID) (31 + 1) 0)
      (31 + 11) v) 32 = _
    simp only [bufPutUvarint, putUvarintBytes_zero]
    rw [writeBytes_eq_of_lt _ _ _ _ (by omega), writeBytes_singleton, if_pos (by omega)]
  have hval2 : uvarintAt h2.File.Buf 42 = v := by
    show uvarintAt (bufPutUvarint (bufPutUvarint (setByte h1.File.Buf 31 ENTRY_VALID) (31 + 1) 0)
      (31 + 11) v) 42 = v
    rw [show (31 + 11 : Nat) = 42 from rfl]
    exact uvarintAt_roundtrip _ 42 v hv
  -- remove
  have hb2_10 : h2.File.Buf 10 = 1 := by rw [hbuf2_lt 10 (by omega)]; exact hb10
  have hb2_11 : h2.File.Buf 11 = 0 := by rw [hbuf2_lt 11 (by omega), hbuf1]; norm_num
  have hb2_21 : h2.File.Buf 21 = 0 := by rw [hbuf2_lt 21 (by omega), hbuf1]; norm_num
  have hscanR : removeGo h2 0 0 (scanFuel h2) 0 0 = some (invalidateEntry h2 10) := by
    rw [show scanFuel h2 = (h2.NumBuckets + 2) * (h2.PerBucket + 1) + 1 from rfl, removeGo_succ,
      haddr00 h2]
    rw [if_pos (show h2.File.Buf 10 = ENTRY_VALID from hb2_10)]
    rw [if_pos (show _ ∧ _ from ⟨uvarintAt_of_first_zero _ _ (by rw [show (10 + 1 : Nat) = 11 from rfl]; exact hb2_11),
      uvarintAt_of_first_zero _ _ (by rw [show (10 + 11 : Nat) = 21 from rfl]; exact hb2_21)⟩)]
  have hrem : h2.Remove 0 0 = some (invalidateEntry h2 10) := by
    rw [HashTable.Remove, hashKey_zero, hscanR]
  set h3 := invalidateEntry h2 10 with hh3
  have hbuf3 : ∀ i, h3.File.Buf i = if i = 10 then 0 else h2.File.Buf i := fun i => rfl
  -- slot 0 of h3 is entirely zero
  have hslot0 : ∀ j, j < 21 → h3.File.Buf (10 + j) = 0 := by
    intro j hj
    rw [hbuf3]
    rcases Nat.eq_zero_or_pos j with h0 | h0
    · subst h0; norm_num
    · rw [if_neg (by omega)]
      rw [hbuf2_lt (10 + j) (by omega), hbuf1, if_neg (by omega)]
  have hb3_11 : h3.File.Buf 11 = 0 := by have := hslot0 1 (by omega); simpa using this
  have hb3_21 : h3.File.Buf 21 = 0 := by have := hslot0 11 (by omega); simpa using this
  have hb3_10 : h3.File.Buf 10 = 0 := by have := hslot0 0 (by omega); simpa using this
  refine ⟨h1, h2, h3, hput1, hput2, hrem, ?_, ?_, ?_, ?_, ?_⟩
  · rw [haddr00 h3]; exact hslot0
  · show h3.File.Buf (h3.entryAddr 0 1) = ENTRY_VALID
    rw [haddr01 h3, hbuf3, if_neg (by omega)]
    exact hb2_31
  · show uvarintAt h3.File.Buf (h3.entryAddr 0 1 + 1) = 0
    rw [haddr01 h3]
    refine uvarintAt_of_first_zero _ _ ?_
    rw [show (31 + 1 : Nat) = 32 from rfl, hbuf3, if_neg (by omega)]
    exact hb2_32
  · show uvarintAt h3.File.Buf (h3.entryAddr 0 1 + 11) = v
    rw [haddr01 h3, show (31 + 11 : Nat) = 42 from rfl]
    rw [uvarintAt_congr h3.File.Buf h2.File.Buf 42
      (fun j hj => by rw [hbuf3, if_neg (by omega)])]
    exact hval2
  · rw [HashTable.Get, hashKey_zero,
      show scanFuel h3 = (h3.NumBuckets + 2) * (h3.PerBucket + 1) + 1 from rfl, getGo_succ,
      haddr00 h3]
    rw [if_neg (show ¬ h3.File.Buf 10 = ENTRY_VALID from by rw [hb3_10]; decide)]
    rw [if_pos (show _ ∧ _ from ⟨uvarintAt_of_first_zero _ _ (by rw [show (10 + 1 : Nat) = 11 from rfl]; exact hb3_11),
      uvarintAt_of_first_zero _ _ (by rw [show (10 + 11 : Nat) = 21 from rfl]; exact hb3_21)⟩)]

/-- Closed instance of the C10 theorem at `hashBits = 4, perBucket = 2, v = 5`. -/
theorem c10_tombstone_sentinel_witness :
    2 ≤ 4 ∧ 2 ≤ 2 ∧ (5 : Nat) ≠ 0 ∧ (5 : Nat) < 2 ^ 64 ∧
    ∃ h1 h2 h3 : HashTable,
      (openFresh 4 2).Put 0 0 = some h1 ∧ h1.Put 0 5 = some h2 ∧
      h2.Remove 0 0 = some h3 ∧
      (∀ j, j < 21 → h3.File.Buf (h3.entryAddr 0 0 + j) = 0) ∧
      slotFlag h3 0 1 = ENTRY_VALID ∧ slotKey h3 0 1 = 0 ∧ slotVal h3 0 1 = 5 ∧
      h3.Get 0 0 alwaysTrue = some ([], []) :=
  ⟨by decide, by decide, by decide, by decide,
    c10_tombstone_sentinel 4 2 5 (by decide) (by decide) (by decide) (by decide)⟩

theorem searchGo_succ (buf : Nat → Nat) (len fuel low mid high : Nat) :
    searchGo buf len (fuel + 1) low mid high =
      (if high - mid = 1 then
        match readByte buf len mid with
        | none => some none
        | some bm =>
          if bm = 0 then
            match readByte buf len ((mid + (2 ^ 64 - 1)) % 2 ^ 64) with
            | none => some none
            | some bp =>
              if bp = 0 then some (some ((mid + (2 ^ 64 - 1)) % 2 ^ 64)) else some (some mid)
          else some (some high)
      else
        match readByte buf len mid with
        | none => some none
        | some bm =>
          if bm = 0 then searchGo buf len fuel low (low + (mid - low) / 2) mid
          else searchGo buf len fuel mid (mid + (high - mid) / 2) high) := rfl

/-- The invariant-carrying termination argument for the zero-tail binary
search: the span `high - low` strictly shrinks each iteration, and the only
way not to produce a `usedSize` is the out-of-range `buf[mid-1]` access in
the final step, which requires `mid = 0` and `buf[0] = 0`. -/
theorem searchGo_terminates (buf : Nat → Nat) (len : Nat) :
    ∀ (fuel low mid high : Nat),
      low ≤ mid → mid < high → high ≤ len → (mid = low → high - low ≤ 1) →
      high - low < fuel →
      ∃ r, searchGo buf len fuel low mid high = some r ∧ (r = none → buf 0 = 0) := by
  intro fuel
  induction fuel with
  | zero =>
    intro low mid high h1 h2 h3 h4 h5
    omega
  | succ fuel ih =>
    intro low mid high h1 h2 h3 h4 h5
    rw [searchGo_succ]
    have hread : readByte buf len mid = some (buf mid) := by
      simp [readByte, lt_of_lt_of_le h2 h3]
    by_cases hterm : high - mid = 1
    · rw [if_pos hterm, hread]
      dsimp only
      by_cases hbm : buf mid = 0
      · rw [if_pos hbm]
        rcases Nat.eq_zero_or_pos mid with h0 | h0
        · subst h0
          rw [show readByte buf len ((0 + (2 ^ 64 - 1)) % 2 ^ 64) =
              (if (0 + (2 ^ 64 - 1)) % 2 ^ 64 < len then
                some (buf ((0 + (2 ^ 64 - 1)) % 2 ^ 64)) else none) from rfl]
          by_cases hr : (0 + (2 ^ 64 - 1)) % 2 ^ 64 < len
          · rw [if_pos hr]
            dsimp only
            by_cases hz : buf ((0 + (2 ^ 64 - 1)) % 2 ^ 64) = 0
            · rw [if_pos hz]
              exact ⟨_, rfl, by simp⟩
            · rw [if_neg hz]
              exact ⟨_, rfl, by simp⟩
          · rw [if_neg hr]
            exact ⟨none, rfl, fun _ => hbm⟩
        · have hidx : (mid + (2 ^ 64 - 1)) % 2 ^ 64 < len := by
            rcases Nat.lt_or_ge mid (2 ^ 64) with hm | hm
            · have : (mid + (2 ^ 64 - 1)) % 2 ^ 64 = mid - 1 := by omega
              omega
            · have : (mid + (2 ^ 64 - 1)) % 2 ^ 64 < 2 ^ 64 :=
                Nat.mod_lt _ (by norm_num)
              omega
          rw [show readByte buf len ((mid + (2 ^ 64 - 1)) % 2 ^ 64) =
              (if (mid + (2 ^ 64 - 1)) % 2 ^ 64 < len then
                some (buf ((mid + (2 ^ 64 - 1)) % 2 ^ 64)) else none) from rfl]
          rw [if_pos hidx]
          dsimp only
          by_cases hz : buf ((mid + (2 ^ 64 - 1)) % 2 ^ 64) = 0
          · rw [if_pos hz]
            exact ⟨_, rfl, by simp⟩
          · rw [if_neg hz]
            exact ⟨_, rfl, by simp⟩
      · rw [if_neg hbm]
        exact ⟨_, rfl, by simp⟩
    · rw [if_neg hterm, hread]
      dsimp only
      by_cases hbm : buf mid = 0
      · rw [if_pos hbm]
        refine ih low (low + (mid - low) / 2) mid (by omega) (by omega) (by omega)
          (fun heq => by omega) (by omega)
      · rw [if_neg hbm]
        refine ih mid (mid + (high - mid) / 2) high (by omega) (by omega) h3
          (fun heq => by omega) (by omega)

/-- **C9**, counterexample: on a 3-byte all-zero buffer the binary search
reaches the final case with `mid = 0` and `buf[mid] = 0`, and the
`buf[mid-1]` access indexes out of range (uint64 underflow), i.e. the code
panics and no `usedSize` is produced — the procedure does not terminate
normally for every `buf` of length `size ≥ 1`. -/
theorem c9_search_panics_cex :
    findUsedSize (fun _ => 0) 3 = some none ∧
      ∀ u : Nat, findUsedSize (fun _ => 0) 3 ≠ some (some u) := by
  have h : findUsedSize (fun _ => 0) 3 = some none := by decide
  exact ⟨h, fun u hu => by rw [h] at hu; simp at hu⟩

/-- **C9**, amended: `Open`'s recovery of `usedSize` follows exactly the
specified binary search (the loop body of `searchGo` is that procedure),
its loop always exits after finitely many steps (fuel `size + 1` suffices),
and for every `buf` of length `size ≥ 1` it either produces the specified
`usedSize` or — only when the final probe has `mid = 0` and `buf[0] == 0` —
panics on the out-of-range `buf[mid-1]` access. -/
theorem c9_search_loop_terminates (buf : Nat → Nat) (len : Nat) (hlen : 1 ≤ len) :
    ∃ r : Option Nat, findUsedSize buf len = some r ∧ (r = none → buf 0 = 0) := by
  unfold findUsedSize
  refine searchGo_terminates buf len (len + 1) 0 (len / 2) len (by omega) (by omega)
    (by omega) (by omega) (by omega)

/-- Closed instance of the amended C9 on a 4-byte buffer `[7, 7, 0, 0]`. -/
theorem c9_search_loop_terminates_witness :
    1 ≤ 4 ∧ ∃ r : Option Nat,
      findUsedSize (fun i => if i < 2 then 7 else 0) 4 = some r ∧
      (r = none → (fun i : Nat => if i < 2 then 7 else 0) 0 = 0) :=
  ⟨by decide, c9_search_loop_terminates _ 4 (by decide)⟩

/-- **C4**: the grow step of `CheckSizeAndEnsure` is supposed to append
exactly `growth` zero bytes per step (and the code accounts
`size += growth`), and it does when `growth` is a multiple of the 1 MiB
chunk; but for `growth = 1` a single step appends
`i + FILE_GROWTH_INCREMENTAL - growth = 1048575` zero bytes (the slice
length should be `growth - i`), so the physical file length and `size`
diverge.  `CheckSize(more)` is `true` iff `usedSize + more ≤ size`. -/
theorem c4_append_divergence :
    (∀ (f : File) (more : Nat), f.CheckSize more = true ↔ f.UsedSize + more ≤ f.Size) ∧
    appendLen 1048576 = 1048576 ∧
    appendLen 1 = 1048575 ∧ (1048575 ≠ 1) := by
  refine ⟨fun f more => ?_, by decide, by decide, by decide⟩
  simp [File.CheckSize]

/-! #### Chain and storage utilities (towards C1) -/

theorem uvarintAt_of_fieldIs (buf : Nat → Nat) (addr x : Nat) (h : FieldIs buf addr x)
    (hx : x < 2 ^ 64) : uvarintAt buf addr = x := by
  have h128 : x < 2 * 128 ^ (9 - 0) := by
    calc x < 2 ^ 64 := hx
      _ = 2 * 128 ^ (9 - 0) := by norm_num
  have hh := uvarintGo_decode 10 x 0 0 0 buf addr h128 (by omega) (by norm_num) (by omega) ?_
  · simpa [uvarintAt] using hh
  · intro j hj
    have hb := h j hj
    simpa [putUvarintBytes] using hb

theorem chainOK_head_lt (ht : HashTable) : ∀ (b : Nat) (bs : List Nat),
    ChainOK ht (b :: bs) → b < ht.NumBuckets := by
  intro b bs
  induction bs generalizing b with
  | nil =>
    intro h
    cases h with
    | last _ hb _ => exact hb
  | cons b' bs ih =>
    intro h
    cases h with
    | cons _ _ _ hlink hlt hib hrest => exact lt_trans hlt (ih b' hrest)

theorem chainOK_mem_lt (ht : HashTable) (bs : List Nat) (h : ChainOK ht bs) :
    ∀ x ∈ bs, x < ht.NumBuckets := by
  induction h with
  | last b hb h0 =>
    intro x hx
    simp only [List.mem_singleton] at hx
    omega
  | cons b b' bs hlink hlt hib hrest ih =>
    intro x hx
    rcases List.mem_cons.mp hx with rfl | hx'
    · exact lt_trans hlt (ih b' (by simp))
    · exact ih x hx'

theorem chainOK_length (ht : HashTable) : ∀ (bs : List Nat) (b : Nat),
    ChainOK ht (b :: bs) → bs.length + b < ht.NumBuckets := by
  intro bs
  induction bs with
  | nil =>
    intro b h
    simpa using chainOK_head_lt ht b [] h
  | cons b' bs2 ih =>
    intro b h
    cases h with
    | cons _ _ _ hlink hlt hib hrest =>
      have hrec := ih b' hrest
      simp only [List.length_cons]
      omega

theorem chainOK_nextBucket_nil (ht : HashTable) (b : Nat) (h : ChainOK ht [b]) :
    ht.nextBucket b = 0 := by
  cases h with
  | last _ hb h0 =>
    simp only [HashTable.nextBucket]
    rw [if_neg (by omega : ¬ ht.NumBuckets ≤ b)]
    simp only [headerOf] at h0
    simp [h0]

theorem chainOK_nextBucket_cons (ht : HashTable) (b b' : Nat) (bs : List Nat)
    (h : ChainOK ht (b :: b' :: bs)) : ht.nextBucket b = b' := by
  cases h with
  | cons _ _ _ hlink hlt hib hrest =>
    have hb' : b' < ht.NumBuckets := chainOK_head_lt ht b' bs hrest
    simp only [HashTable.nextBucket]
    rw [if_neg (by omega : ¬ ht.NumBuckets ≤ b)]
    simp only [headerOf] at hlink
    rw [hlink, if_neg (by omega : ¬ b' = 0), if_neg (by omega : ¬ b' ≤ b),
      if_neg (by omega : ¬ (ht.NumBuckets ≤ b' ∨ b' < ht.InitialBuckets))]

theorem lastBucketAux_chain (ht : HashTable) : ∀ (bs : List Nat) (b fuel : Nat),
    ChainOK ht (b :: bs) → bs.length ≤ fuel →
    lastBucketAux ht fuel b = (b :: bs).getLastD 0 := by
  intro bs
  induction bs with
  | nil =>
    intro b fuel h hf
    have hnb := chainOK_nextBucket_nil ht b h
    cases fuel with
    | zero => rfl
    | succ fuel =>
      simp only [lastBucketAux]
      rw [hnb]
      simp
  | cons b' bs2 ih =>
    intro b fuel h hf
    have hnb := chainOK_nextBucket_cons ht b b' bs2 h
    cases fuel with
    | zero => simp at hf
    | succ fuel =>
      simp only [lastBucketAux]
      rw [hnb]
      have hb'pos : ¬ b' = 0 := by
        cases h with
        | cons _ _ _ hlink hlt hib hrest => omega
      rw [if_neg hb'pos]
      cases h with
      | cons _ _ _ hlink hlt hib hrest =>
        rw [ih b' fuel hrest (by simpa using hf)]
        rw [List.getLastD_cons, List.getLastD_cons, List.getLastD_cons]

theorem storedOK_length (ht : HashTable) (addrs : List Nat) (l : List (Nat × Nat))
    (h : StoredOK ht addrs l) : l.length ≤ addrs.length := by
  induction h with
  | nil addrs hz => simp
  | cons a addrs k v l hflag hk hv hkb hvb hrest ih =>
    simp only [List.length_cons]
    omega

theorem fieldIs_congr (buf1 buf2 : Nat → Nat) (addr x : Nat) (hx : x < 2 ^ 64)
    (hagree : ∀ j, j < 10 → buf1 (addr + j) = buf2 (addr + j))
    (h : FieldIs buf2 addr x) : FieldIs buf1 addr x := by
  intro j hj
  rw [hagree j (lt_of_lt_of_le hj (putUvarintBytes_length x hx))]
  exact h j hj

theorem storedOK_congr (ht ht' : HashTable) (addrs : List Nat) (l : List (Nat × Nat))
    (h : StoredOK ht addrs l) :
    (∀ a ∈ addrs, ∀ j, j < 21 → ht'.File.Buf (a + j) = ht.File.Buf (a + j)) →
    StoredOK ht' addrs l := by
  induction h with
  | nil addrs hz =>
    intro hagree
    exact .nil _ (fun a ha j hj => by rw [hagree a ha j hj]; exact hz a ha j hj)
  | cons a addrs k v l hflag hk hv hkb hvb hrest ih =>
    intro hagree
    refine .cons a addrs k v l ?_ ?_ ?_ hkb hvb (ih (fun a' ha' => hagree a' (by simp [ha'])))
    · have hh := hagree a (by simp) 0 (by omega)
      rw [Nat.add_zero] at hh
      rw [hh]
      exact hflag
    · refine fieldIs_congr _ _ _ _ hkb (fun j hj => ?_) hk
      have hh := hagree a (by simp) (1 + j) (by omega)
      rw [show a + (1 + j) = a + 1 + j from by omega] at hh
      exact hh
    · refine fieldIs_congr _ _ _ _ hvb (fun j hj => ?_) hv
      have hh := hagree a (by simp) (11 + j) (by omega)
      rw [show a + (11 + j) = a + 11 + j from by omega] at hh
      exact hh

theorem chainOK_mono (ht ht' : HashTable)
    (hsz : ht'.BucketSize = ht.BucketSize) (hnb : ht.NumBuckets ≤ ht'.NumBuckets)
    (hib : ht'.InitialBuckets = ht.InitialBuckets) (bs : List Nat) (h : ChainOK ht bs) :
    (∀ b ∈ bs, ∀ j, j < 10 →
      ht'.File.Buf (b * ht.BucketSize + j) = ht.File.Buf (b * ht.BucketSize + j)) →
    ChainOK ht' bs := by
  induction h with
  | last b hb h0 =>
    intro hagree
    refine .last b (by omega) ?_
    have hh : headerOf ht' b = headerOf ht b := by
      simp only [headerOf, hsz]
      exact uvarintAt_congr _ _ _ (fun j hj => hagree b (by simp) j hj)
    rw [hh, h0]
  | cons b b' bs hlink hlt hib2 hrest ih =>
    intro hagree
    refine .cons b b' bs ?_ hlt (by omega) (ih (fun x hx j hj => hagree x (by simp [hx]) j hj))
    have hh : headerOf ht' b = headerOf ht b := by
      simp only [headerOf, hsz]
      exact uvarintAt_congr _ _ _ (fun j hj => hagree b (by simp) j hj)
    rw [hh, hlink]

theorem slotsOfBucketFrom_cons (ht : HashTable) (b e : Nat) (he : e < ht.PerBucket) :
    slotsOfBucketFrom ht b e = ht.entryAddr b e :: slotsOfBucketFrom ht b (e + 1) := by
  simp only [slotsOfBucketFrom]
  rw [show ht.PerBucket - e = (ht.PerBucket - (e + 1)) + 1 from by omega, List.range'_succ]
  simp

theorem slotsOfBucketFrom_end (ht : HashTable) (b : Nat) :
    slotsOfBucketFrom ht b ht.PerBucket = [] := by
  simp [slotsOfBucketFrom]

theorem slotsOfChain_cons (ht : HashTable) (b : Nat) (bs : List Nat) :
    slotsOfChain ht (b :: bs) = slotsOfBucketFrom ht b 0 ++ slotsOfChain ht bs := by
  simp [slotsOfChain]

theorem slotsFrom_cons (ht : HashTable) (b e : Nat) (bs : List Nat) (he : e < ht.PerBucket) :
    slotsFrom ht b e bs = ht.entryAddr b e :: slotsFrom ht b (e + 1) bs := by
  simp [slotsFrom, slotsOfBucketFrom_cons ht b e he]

theorem slotsFrom_end (ht : HashTable) (b : Nat) (bs : List Nat) :
    slotsFrom ht b ht.PerBucket bs = slotsOfChain ht bs := by
  simp [slotsFrom, slotsOfBucketFrom_end]

theorem slotsFrom_zero (ht : HashTable) (b : Nat) (bs : List Nat) :
    slotsFrom ht b 0 bs = slotsOfChain ht (b :: bs) := by
  simp [slotsFrom, slotsOfChain_cons]

theorem entryAddr_byte_bounds (ht : HashTable)
    (hbs : ht.BucketSize = BUCKET_HEADER_SIZE + ENTRY_SIZE * ht.PerBucket)
    (b e j : Nat) (he : e < ht.PerBucket) (hj : j < 21) :
    b * ht.BucketSize + 10 ≤ ht.entryAddr b e + j ∧
      ht.entryAddr b e + j < (b + 1) * ht.BucketSize := by
  have h2 : (b + 1) * ht.BucketSize = b * ht.BucketSize + ht.BucketSize := by ring
  have h3 : ht.BucketSize = 10 + 21 * ht.PerBucket := by
    rw [hbs]
    norm_num [BUCKET_HEADER_SIZE, ENTRY_SIZE]
  simp only [HashTable.entryAddr, BUCKET_HEADER_SIZE, ENTRY_SIZE]
  omega

theorem bucket_ranges_disjoint (bsz b b' x : Nat) (hne : b ≠ b')
    (hx1 : b * bsz ≤ x) (hx2 : x < (b + 1) * bsz)
    (hx3 : b' * bsz ≤ x) (hx4 : x < (b' + 1) * bsz) : False := by
  rcases Nat.lt_or_ge b b' with h | h
  · have hh : (b + 1) * bsz ≤ b' * bsz := Nat.mul_le_mul_right _ (by omega)
    omega
  · have hlt : b' < b := by omega
    have hh : (b' + 1) * bsz ≤ b * bsz := Nat.mul_le_mul_right _ (by omega)
    omega

theorem mem_slotsOfChain (ht : HashTable) (bs : List Nat) (a : Nat)
    (h : a ∈ slotsOfChain ht bs) :
    ∃ b, b ∈ bs ∧ ∃ e, e < ht.PerBucket ∧ a = ht.entryAddr b e := by
  simp only [slotsOfChain, List.mem_flatten, List.mem_map] at h
  obtain ⟨l, ⟨b, hb, rfl⟩, hal⟩ := h
  simp only [slotsOfBucketFrom, List.mem_map] at hal
  obtain ⟨e, hmem, rfl⟩ := hal
  have he := List.mem_range'_1.mp hmem
  exact ⟨b, hb, e, by omega, rfl⟩

theorem writeEntry_buf_eq (ht : HashTable) (a k v : Nat) (hk : k < 2 ^ 64) (hv : v < 2 ^ 64)
    (i : Nat) (hout : i < a ∨ a + 21 ≤ i) :
    (writeEntry ht a k v).File.Buf i = ht.File.Buf i := by
  have hlk := putUvarintBytes_length k hk
  have hlv := putUvarintBytes_length v hv
  show (bufPutUvarint (bufPutUvarint (setByte ht.File.Buf a ENTRY_VALID) (a + 1) k)
    (a + 11) v) i = _
  simp only [bufPutUvarint]
  rcases hout with hlt | hge
  · rw [writeBytes_eq_of_lt _ _ _ _ (by omega), writeBytes_eq_of_lt _ _ _ _ (by omega)]
    simp only [setByte]
    rw [if_neg (by omega)]
  · rw [writeBytes_eq_of_ge _ _ _ _ (by omega), writeBytes_eq_of_ge _ _ _ _ (by omega)]
    simp only [setByte]
    rw [if_neg (by omega)]

theorem writeEntry_flag (ht : HashTable) (a k v : Nat) (hk : k < 2 ^ 64) (hv : v < 2 ^ 64) :
    (writeEntry ht a k v).File.Buf a = ENTRY_VALID := by
  show (bufPutUvarint (bufPutUvarint (setByte ht.File.Buf a ENTRY_VALID) (a + 1) k)
    (a + 11) v) a = _
  simp only [bufPutUvarint]
  rw [writeBytes_eq_of_lt _ _ _ _ (by omega), writeBytes_eq_of_lt _ _ _ _ (by omega)]
  simp [setByte]

theorem writeEntry_keyField (ht : HashTable) (a k v : Nat) (hk : k < 2 ^ 64) (hv : v < 2 ^ 64) :
    FieldIs (writeEntry ht a k v).File.Buf (a + 1) k := by
  have hlk := putUvarintBytes_length k hk
  intro j hj
  show (bufPutUvarint (bufPutUvarint (setByte ht.File.Buf a ENTRY_VALID) (a + 1) k)
    (a + 11) v) (a + 1 + j) = _
  simp only [bufPutUvarint]
  rw [writeBytes_eq_of_lt _ _ _ _ (by omega)]
  exact writeBytes_get _ _ _ _ hj

theorem writeEntry_valField (ht : HashTable) (a k v : Nat) (hk : k < 2 ^ 64) (hv : v < 2 ^ 64) :
    FieldIs (writeEntry ht a k v).File.Buf (a + 11) v := by
  intro j hj
  show (bufPutUvarint (bufPutUvarint (setByte ht.File.Buf a ENTRY_VALID) (a + 1) k)
    (a + 11) v) (a + 11 + j) = _
  simp only [bufPutUvarint]
  exact writeBytes_get _ _ _ _ hj

theorem storedOK_nil_of_nil (ht : HashTable) (l : List (Nat × Nat)) (h : StoredOK ht [] l) :
    l = [] := by
  cases h with
  | nil => rfl

/-- The `Get` scan over a well-formed chain returns exactly the stored pairs
whose key equals the query key, in storage order (unbounded `limit = 0`,
always-true filter). -/
theorem getGo_chain (ht : HashTable) (key : Nat) :
    ∀ (fuel b e : Nat) (bs : List Nat) (l : List (Nat × Nat)) (ks vs : List Nat) (count : Nat),
      ChainOK ht (b :: bs) → e < ht.PerBucket →
      StoredOK ht (slotsFrom ht b e bs) l →
      (slotsFrom ht b e bs).length < fuel →
      getGo ht key 0 alwaysTrue fuel count b e ks vs =
        some (ks ++ (l.filter fun p => p.1 = key).map Prod.fst,
              vs ++ (l.filter fun p => p.1 = key).map Prod.snd) := by
  intro fuel
  induction fuel with
  | zero =>
    intro b e bs l ks vs count hchain he hst hlen
    omega
  | succ fuel ih =>
    intro b e bs l ks vs count hchain he hst hlen
    rw [slotsFrom_cons ht b e bs he] at hst hlen
    rw [getGo_succ]
    cases hst with
    | nil addrs hz =>
      have hf : ht.File.Buf (ht.entryAddr b e) = 0 := by
        have hh := hz (ht.entryAddr b e) (by simp) 0 (by omega)
        simpa using hh
      have hk0 : uvarintAt ht.File.Buf (ht.entryAddr b e + 1) = 0 :=
        uvarintAt_of_first_zero _ _ (hz (ht.entryAddr b e) (by simp) 1 (by omega))
      have hv0 : uvarintAt ht.File.Buf (ht.entryAddr b e + 11) = 0 :=
        uvarintAt_of_first_zero _ _ (hz (ht.entryAddr b e) (by simp) 11 (by omega))
      rw [if_neg (by rw [hf]; decide), if_pos ⟨hk0, hv0⟩]
      simp
    | cons a rest k0 v0 l' hflag hk hv hkb hvb hrest =>
      rw [if_pos hflag, uvarintAt_of_fieldIs _ _ _ hk hkb, uvarintAt_of_fieldIs _ _ _ hv hvb]
      by_cases hkey : k0 = key
      · rw [if_pos (show k0 = key ∧ alwaysTrue k0 v0 = true from ⟨hkey, rfl⟩)]
        rw [if_neg (by omega : ¬ count + 1 = 0)]
        by_cases hlast : e + 1 = ht.PerBucket
        · rw [if_pos hlast]
          cases bs with
          | nil =>
            rw [chainOK_nextBucket_nil ht b hchain]
            have hrest' : slotsFrom ht b (e + 1) ([] : List Nat) = [] := by
              rw [hlast, slotsFrom_end]
              rfl
            rw [hrest'] at hrest
            have hl' := storedOK_nil_of_nil ht l' hrest
            subst hl'
            simp [List.filter_cons, hkey]
          | cons b' bs2 =>
            have hb'pos : 0 < b' := by
              cases hchain with
              | cons _ _ _ hlink hlt hib hrest2 => omega
            obtain ⟨n, rfl⟩ : ∃ n, b' = n + 1 := ⟨b' - 1, by omega⟩
            rw [chainOK_nextBucket_cons ht b (n + 1) bs2 hchain]
            show getGo ht key 0 alwaysTrue fuel (count + 1) (n + 1) 0
              (ks ++ [k0]) (vs ++ [v0]) = _
            have hchain' : ChainOK ht ((n + 1) :: bs2) := by
              cases hchain with
              | cons _ _ _ _ _ _ hr => exact hr
            have heq : slotsFrom ht b (e + 1) ((n + 1) :: bs2) =
                slotsOfChain ht ((n + 1) :: bs2) := by
              rw [hlast, slotsFrom_end]
            rw [heq] at hrest hlen
            have hst' : StoredOK ht (slotsFrom ht (n + 1) 0 bs2) l' := by
              rw [slotsFrom_zero]
              exact hrest
            rw [ih (n + 1) 0 bs2 l' (ks ++ [k0]) (vs ++ [v0]) (count + 1) hchain'
              (by omega) hst' (by rw [slotsFrom_zero]; simpa using hlen)]
            simp [List.filter_cons, hkey]
        · rw [if_neg hlast]
          rw [ih b (e + 1) bs l' (ks ++ [k0]) (vs ++ [v0]) (count + 1) hchain
            (by omega) hrest (by simpa using hlen)]
          simp [List.filter_cons, hkey]
      · rw [if_neg (show ¬ (k0 = key ∧ alwaysTrue k0 v0 = true) from fun hc => hkey hc.1)]
        by_cases hlast : e + 1 = ht.PerBucket
        · rw [if_pos hlast]
          cases bs with
          | nil =>
            rw [chainOK_nextBucket_nil ht b hchain]
            have hrest' : slotsFrom ht b (e + 1) ([] : List Nat) = [] := by
              rw [hlast, slotsFrom_end]
              rfl
            rw [hrest'] at hrest
            have hl' := storedOK_nil_of_nil ht l' hrest
            subst hl'
            simp [List.filter_cons, hkey]
          | cons b' bs2 =>
            have hb'pos : 0 < b' := by
              cases hchain with
              | cons _ _ _ hlink hlt hib hrest2 => omega
            obtain ⟨n, rfl⟩ : ∃ n, b' = n + 1 := ⟨b' - 1, by omega⟩
            rw [chainOK_nextBucket_cons ht b (n + 1) bs2 hchain]
            show getGo ht key 0 alwaysTrue fuel count (n + 1) 0 ks vs = _
            have hchain' : ChainOK ht ((n + 1) :: bs2) := by
              cases hchain with
              | cons _ _ _ _ _ _ hr => exact hr
            have heq : slotsFrom ht b (e + 1) ((n + 1) :: bs2) =
                slotsOfChain ht ((n + 1) :: bs2) := by
              rw [hlast, slotsFrom_end]
            rw [heq] at hrest hlen
            have hst' : StoredOK ht (slotsFrom ht (n + 1) 0 bs2) l' := by
              rw [slotsFrom_zero]
              exact hrest
            rw [ih (n + 1) 0 bs2 l' ks vs count hchain' (by omega) hst'
              (by rw [slotsFrom_zero]; simpa using hlen)]
            simp [List.filter_cons, hkey]
        · rw [if_neg hlast]
          rw [ih b (e + 1) bs l' ks vs count hchain (by omega) hrest (by simpa using hlen)]
          simp [List.filter_cons, hkey]

/-- The `Put` scan over a well-formed chain claims exactly the slot after
the stored prefix, or signals the chain end when the chain is full. -/
theorem putScanGo_chain (ht : HashTable) (key val : Nat) :
    ∀ (fuel b e : Nat) (bs : List Nat) (l : List (Nat × Nat)),
      ChainOK ht (b :: bs) → e < ht.PerBucket →
      StoredOK ht (slotsFrom ht b e bs) l →
      (slotsFrom ht b e bs).length < fuel →
      (l.length < (slotsFrom ht b e bs).length →
        putScanGo ht key val fuel b e =
          some (some (writeEntry ht ((slotsFrom ht b e bs).getD l.length 0) key val))) ∧
      (l.length = (slotsFrom ht b e bs).length → putScanGo ht key val fuel b e = some none) := by
  intro fuel
  induction fuel with
  | zero =>
    intro b e bs l hchain he hst hlen
    omega
  | succ fuel ih =>
    intro b e bs l hchain he hst hlen
    rw [slotsFrom_cons ht b e bs he] at hst hlen ⊢
    rw [putScanGo_succ]
    cases hst with
    | nil addrs hz =>
      have hf : ht.File.Buf (ht.entryAddr b e) = 0 := by
        have hh := hz (ht.entryAddr b e) (by simp) 0 (by omega)
        simpa using hh
      rw [if_pos (show ht.File.Buf (ht.entryAddr b e) ≠ ENTRY_VALID from by rw [hf]; decide)]
      refine ⟨fun _ => ?_, fun hcon => ?_⟩
      · rfl
      · simp at hcon
    | cons a rest k0 v0 l' hflag hk hv hkb hvb hrest =>
      rw [if_neg (not_not_intro hflag)]
      by_cases hlast : e + 1 = ht.PerBucket
      · rw [if_pos hlast]
        cases bs with
        | nil =>
          rw [chainOK_nextBucket_nil ht b hchain]
          have hrest' : slotsFrom ht b (e + 1) ([] : List Nat) = [] := by
            rw [hlast, slotsFrom_end]
            rfl
          rw [hrest'] at hrest
          have hl' := storedOK_nil_of_nil ht l' hrest
          subst hl'
          refine ⟨fun hlt => ?_, fun _ => rfl⟩
          simp [hrest'] at hlt
        | cons b' bs2 =>
          have hb'pos : 0 < b' := by
            cases hchain with
            | cons _ _ _ hlink hlt hib hrest2 => omega
          obtain ⟨n, rfl⟩ : ∃ n, b' = n + 1 := ⟨b' - 1, by omega⟩
          rw [chainOK_nextBucket_cons ht b (n + 1) bs2 hchain]
          have hchain' : ChainOK ht ((n + 1) :: bs2) := by
            cases hchain with
            | cons _ _ _ _ _ _ hr => exact hr
          have heq : slotsFrom ht b (e + 1) ((n + 1) :: bs2) =
              slotsFrom ht (n + 1) 0 bs2 := by
            rw [hlast, slotsFrom_end, slotsFrom_zero]
          rw [heq] at hrest hlen ⊢
          have hrec := ih (n + 1) 0 bs2 l' hchain' (by omega) hrest (by simpa using hlen)
          constructor
          · intro hlt
            show putScanGo ht key val fuel (n + 1) 0 = _
            simp only [List.length_cons] at hlt
            rw [hrec.1 (by omega)]
            simp [List.getD_cons_succ]
          · intro heqlen
            show putScanGo ht key val fuel (n + 1) 0 = some none
            simp only [List.length_cons] at heqlen
            exact hrec.2 (by omega)
      · rw [if_neg hlast]
        have hrec := ih b (e + 1) bs l' hchain (by omega) hrest (by simpa using hlen)
        constructor
        · intro hlt
          simp only [List.length_cons] at hlt
          rw [hrec.1 (by omega)]
          simp [List.getD_cons_succ]
        · intro heqlen
          simp only [List.length_cons] at heqlen
          exact hrec.2 (by omega)

theorem slotsSep_tail (a : Nat) (rest : List Nat) (h : SlotsSep (a :: rest)) :
    SlotsSep rest := by
  cases h with
  | single _ => exact .nil
  | cons _ b t hab hrest => exact hrest

theorem slotsSep_head_le (a : Nat) : ∀ (rest : List Nat), SlotsSep (a :: rest) →
    ∀ a' ∈ rest, a + 21 ≤ a' := by
  intro rest
  induction rest generalizing a with
  | nil => intro _ a' ha'; simp at ha'
  | cons b t ih =>
    intro h a' ha'
    cases h with
    | cons _ _ _ hab hrest =>
      rcases List.mem_cons.mp ha' with rfl | hmem
      · exact hab
      · have := ih b hrest a' hmem
        omega

theorem slotsSep_append (xs : List Nat) : ∀ (ys : List Nat), SlotsSep xs → SlotsSep ys →
    (∀ x ∈ xs, ∀ y ∈ ys, x + 21 ≤ y) → SlotsSep (xs ++ ys) := by
  induction xs with
  | nil => intro ys _ hys _; simpa using hys
  | cons x xs ih =>
    intro ys hxs hys hb
    cases xs with
    | nil =>
      cases ys with
      | nil => exact .single x
      | cons y ys2 =>
        exact .cons x y ys2 (hb x (by simp) y (by simp)) hys
    | cons x2 xs2 =>
      cases hxs with
      | cons _ _ _ hab hrest =>
        have htail := ih ys hrest hys (fun a ha y hy => hb a (by simp [ha]) y hy)
        exact .cons x x2 (xs2 ++ ys) hab htail

theorem mem_slotsOfBucketFrom (ht : HashTable) (b e a : Nat)
    (h : a ∈ slotsOfBucketFrom ht b e) :
    ∃ j, e ≤ j ∧ j < ht.PerBucket ∧ a = ht.entryAddr b j := by
  simp only [slotsOfBucketFrom, List.mem_map] at h
  obtain ⟨j, hmem, rfl⟩ := h
  have hj := List.mem_range'_1.mp hmem
  exact ⟨j, by omega, by omega, rfl⟩

theorem slotsSep_range (ht : HashTable) (b : Nat) : ∀ (n s : Nat),
    SlotsSep ((List.range' s n).map fun j => ht.entryAddr b j) := by
  intro n
  induction n with
  | zero => intro s; exact .nil
  | succ n ih =>
    intro s
    rw [List.range'_succ, List.map_cons]
    cases n with
    | zero => exact .single _
    | succ n2 =>
      have h2 := ih (s + 1)
      rw [List.range'_succ, List.map_cons] at h2 ⊢
      refine .cons _ _ _ ?_ h2
      simp only [HashTable.entryAddr, ENTRY_SIZE]
      omega

theorem slotsSep_bucketFrom (ht : HashTable) (b e : Nat) :
    SlotsSep (slotsOfBucketFrom ht b e) :=
  slotsSep_range ht b (ht.PerBucket - e) e

theorem chainOK_lt_mem (ht : HashTable) : ∀ (bs : List Nat) (b : Nat),
    ChainOK ht (b :: bs) → ∀ x ∈ bs, b < x := by
  intro bs
  induction bs with
  | nil => intro b _ x hx; simp at hx
  | cons b' bs2 ih =>
    intro b h x hx
    cases h with
    | cons _ _ _ hlink hlt hib hrest =>
      rcases List.mem_cons.mp hx with rfl | hmem
      · exact hlt
      · exact lt_trans hlt (ih b' hrest x hmem)

theorem slotsSep_chain (ht : HashTable)
    (hbs : ht.BucketSize = BUCKET_HEADER_SIZE + ENTRY_SIZE * ht.PerBucket)
    (bs : List Nat) (h : ChainOK ht bs) : SlotsSep (slotsOfChain ht bs) := by
  induction h with
  | last b hb h0 =>
    rw [slotsOfChain_cons]
    have hnil : slotsOfChain ht ([] : List Nat) = [] := rfl
    rw [hnil, List.append_nil]
    exact slotsSep_bucketFrom ht b 0
  | cons b b' bs hlink hlt hib hrest ih =>
    rw [slotsOfChain_cons]
    refine slotsSep_append _ _ (slotsSep_bucketFrom ht b 0) ih ?_
    intro x hx y hy
    obtain ⟨e, _, he, rfl⟩ := mem_slotsOfBucketFrom ht b 0 x hx
    obtain ⟨b2, hb2, e2, he2, rfl⟩ := mem_slotsOfChain ht (b' :: bs) y hy
    have hblt : b < b2 := by
      rcases List.mem_cons.mp hb2 with rfl | hmem
      · exact hlt
      · exact lt_trans hlt (chainOK_lt_mem ht bs b' hrest b2 hmem)
    have h1 : ht.entryAddr b e + 21 ≤ (b + 1) * ht.BucketSize := by
      have hh := (entryAddr_byte_bounds ht hbs b e 20 he (by omega)).2
      omega
    have h2 : (b + 1) * ht.BucketSize ≤ b2 * ht.BucketSize :=
      Nat.mul_le_mul_right _ (by omega)
    have h3 : b2 * ht.BucketSize ≤ ht.entryAddr b2 e2 := by
      simp only [HashTable.entryAddr]
      omega
    omega

/-- Writing `(k, v)` into the first free slot extends the stored prefix by
one pair and leaves every other slot untouched. -/
theorem storedOK_write (ht : HashTable) (k v : Nat) (hk : k < 2 ^ 64) (hv : v < 2 ^ 64)
    (addrs : List Nat) (l : List (Nat × Nat)) (hst : StoredOK ht addrs l) :
    SlotsSep addrs → l.length < addrs.length →
    StoredOK (writeEntry ht (addrs.getD l.length 0) k v) addrs (l ++ [(k, v)]) := by
  induction hst with
  | nil addrs hz =>
    intro hsep hlen
    cases addrs with
    | nil => simp at hlen
    | cons A rest =>
      simp only [List.length_nil, List.getD_cons_zero, List.nil_append]
      refine .cons A rest k v [] (writeEntry_flag ht A k v hk hv)
        (writeEntry_keyField ht A k v hk hv) (writeEntry_valField ht A k v hk hv) hk hv ?_
      refine .nil rest ?_
      intro a ha j hj
      have hge : A + 21 ≤ a := slotsSep_head_le A rest hsep a ha
      rw [writeEntry_buf_eq ht A k v hk hv (a + j) (Or.inr (by omega))]
      exact hz a (by simp [ha]) j hj
  | cons a addrs k0 v0 l hflag hkf hvf hkb hvb hrest ih =>
    intro hsep hlen
    simp only [List.length_cons, List.getD_cons_succ, List.cons_append]
    have hlen' : l.length < addrs.length := by simpa using hlen
    have hAmem : addrs.getD l.length 0 ∈ addrs := by
      rw [List.getD_eq_getElem addrs 0 hlen']
      exact List.getElem_mem hlen'
    have hge : a + 21 ≤ addrs.getD l.length 0 := slotsSep_head_le a addrs hsep _ hAmem
    refine .cons a addrs k0 v0 (l ++ [(k, v)]) ?_ ?_ ?_ hkb hvb
      (ih (slotsSep_tail a addrs hsep) hlen')
    · rw [writeEntry_buf_eq ht _ k v hk hv a (Or.inl (by omega))]
      exact hflag
    · refine fieldIs_congr _ _ _ _ hkb (fun j hj => ?_) hkf
      exact writeEntry_buf_eq ht _ k v hk hv (a + 1 + j) (Or.inl (by omega))
    · refine fieldIs_congr _ _ _ _ hvb (fun j hj => ?_) hvf
      exact writeEntry_buf_eq ht _ k v hk hv (a + 11 + j) (Or.inl (by omega))

/-- The write case of `Put`: when the chain of head `h0` still has a free
slot, claiming it preserves the representation with `(k, v)` appended to
`h0`'s contents. -/
theorem rep_write (ht : HashTable) (chains : Nat → List Nat) (m : Nat → List (Nat × Nat))
    (hw : RepWith ht chains m) (h0 : Nat) (hh0 : h0 < ht.InitialBuckets)
    (k v : Nat) (hk : k < 2 ^ 64) (hv : v < 2 ^ 64)
    (hlen : (m h0).length < (slotsOfChain ht (chains h0)).length) :
    RepWith (writeEntry ht ((slotsOfChain ht (chains h0)).getD (m h0).length 0) k v) chains
      (fun h => if h = h0 then m h ++ [(k, v)] else m h) := by
  set A := (slotsOfChain ht (chains h0)).getD (m h0).length 0 with hA
  set htW := writeEntry ht A k v with hW
  have hAmem : A ∈ slotsOfChain ht (chains h0) := by
    rw [hA, List.getD_eq_getElem _ 0 hlen]
    exact List.getElem_mem hlen
  obtain ⟨bA, hbA, eA, heA, hAeq⟩ := mem_slotsOfChain ht (chains h0) A hAmem
  have hbAlt : bA < ht.NumBuckets := chainOK_mem_lt ht _ (hw.chain_ok h0 hh0) bA hbA
  have hAlow : bA * ht.BucketSize + 10 ≤ A := by
    rw [hAeq]
    have hh := (entryAddr_byte_bounds ht hw.bucketSize_eq bA eA 0 heA (by omega)).1
    omega
  have hAhigh : A + 21 ≤ (bA + 1) * ht.BucketSize := by
    rw [hAeq]
    have hh := (entryAddr_byte_bounds ht hw.bucketSize_eq bA eA 20 heA (by omega)).2
    omega
  have hBS : 11 ≤ ht.BucketSize := by
    have h1 := hw.bucketSize_eq
    have h2 := hw.pb_pos
    simp only [BUCKET_HEADER_SIZE, ENTRY_SIZE] at h1
    omega
  have hout_header : ∀ (b j : Nat), j < 10 →
      htW.File.Buf (b * ht.BucketSize + j) = ht.File.Buf (b * ht.BucketSize + j) := by
    intro b j hj
    refine writeEntry_buf_eq ht A k v hk hv _ ?_
    by_cases hbb : b = bA
    · subst hbb
      left
      omega
    · by_contra hcon
      push_neg at hcon
      obtain ⟨h1, h2⟩ := hcon
      have hr1 : (b + 1) * ht.BucketSize = b * ht.BucketSize + ht.BucketSize := by ring
      exact bucket_ranges_disjoint ht.BucketSize b bA (b * ht.BucketSize + j) hbb
        (by omega) (by omega) (by omega) (by omega)
  have hout_slot : ∀ (b : Nat), b ≠ bA → ∀ (e j : Nat), e < ht.PerBucket → j < 21 →
      htW.File.Buf (ht.entryAddr b e + j) = ht.File.Buf (ht.entryAddr b e + j) := by
    intro b hbb e j he hj
    refine writeEntry_buf_eq ht A k v hk hv _ ?_
    by_contra hcon
    push_neg at hcon
    obtain ⟨h1, h2⟩ := hcon
    have hb1 := (entryAddr_byte_bounds ht hw.bucketSize_eq b e j he hj).1
    have hb2 := (entryAddr_byte_bounds ht hw.bucketSize_eq b e j he hj).2
    exact bucket_ranges_disjoint ht.BucketSize b bA (ht.entryAddr b e + j) hbb
      (by omega) hb2 (by omega) (by omega)
  refine ⟨hw.pb_pos, hw.bucketSize_eq, hw.ib_eq, hw.ib_le, hw.used_eq, hw.used_le_size,
    hw.size_eq_filelen, hw.growth_eq, ?_, hw.chain_head, ?_, hw.chain_disj, ?_⟩
  · intro i hi
    have hi' : ht.File.UsedSize ≤ i := hi
    have h1 : (bA + 1) * ht.BucketSize ≤ ht.NumBuckets * ht.BucketSize :=
      Nat.mul_le_mul_right _ (by omega)
    have h2 := hw.used_eq
    rw [writeEntry_buf_eq ht A k v hk hv i (Or.inr (by omega))]
    exact hw.zero_tail i hi'
  · intro h hh
    refine chainOK_mono ht htW rfl (le_refl _) rfl (chains h) (hw.chain_ok h hh) ?_
    intro b _ j hj
    exact hout_header b j hj
  · intro h hh
    by_cases hcase : h = h0
    · subst hcase
      simp only [if_pos rfl]
      show StoredOK htW (slotsOfChain ht (chains h)) (m h ++ [(k, v)])
      exact storedOK_write ht k v hk hv _ _ (hw.stored h hh)
        (slotsSep_chain ht hw.bucketSize_eq _ (hw.chain_ok h hh)) hlen
    · simp only [if_neg hcase]
      show StoredOK htW (slotsOfChain ht (chains h)) (m h)
      refine storedOK_congr ht htW _ _ (hw.stored h hh) ?_
      intro a ha j hj
      obtain ⟨b, hb, e, he, rfl⟩ := mem_slotsOfChain ht (chains h) a ha
      have hbne : b ≠ bA := fun hbeq => hw.chain_disj h h0 hh hh0 hcase b hb (hbeq ▸ hbA)
      exact hout_slot b hbne e j he hj

theorem appendLen_growth : appendLen HASH_TABLE_GROWTH = HASH_TABLE_GROWTH := by decide

/-- Growing a file whose accounted size matches its physical length (the
1 MiB-growth regime of the hash table) preserves that match, the used size,
and all content below the old size, and keeps the zero tail zero. -/
theorem ensureGo_invariants (more : Nat) : ∀ (fuel : Nat) (f : File),
    f.Size = f.FileLen → f.Growth = HASH_TABLE_GROWTH →
    (ensureGo fuel f more).Size = (ensureGo fuel f more).FileLen ∧
    (ensureGo fuel f more).Growth = HASH_TABLE_GROWTH ∧
    (ensureGo fuel f more).UsedSize = f.UsedSize ∧
    f.Size ≤ (ensureGo fuel f more).Size ∧
    (∀ i, i < f.Size → (ensureGo fuel f more).Buf i = f.Buf i) ∧
    ((∀ i, f.UsedSize ≤ i → f.Buf i = 0) →
      ∀ i, f.UsedSize ≤ i → (ensureGo fuel f more).Buf i = 0) := by
  intro fuel
  induction fuel with
  | zero =>
    intro f hsf hg
    exact ⟨hsf, hg, rfl, le_refl _, fun i _ => rfl, fun hz i hi => hz i hi⟩
  | succ fuel ih =>
    intro f hsf hg
    simp only [ensureGo]
    split
    · exact ⟨hsf, hg, rfl, le_refl _, fun i _ => rfl, fun hz i hi => hz i hi⟩
    · have hsf' : (fileGrowStep f).Size = (fileGrowStep f).FileLen := by
        show f.Size + f.Growth = f.FileLen + appendLen f.Growth
        rw [hg, appendLen_growth, hsf]
      have hg' : (fileGrowStep f).Growth = HASH_TABLE_GROWTH := hg
      obtain ⟨h1, h2, h3, h4, h5, h6⟩ := ih (fileGrowStep f) hsf' hg'
      refine ⟨h1, h2, h3, ?_, ?_, ?_⟩
      · have : f.Size ≤ (fileGrowStep f).Size := by
          show f.Size ≤ f.Size + f.Growth
          omega
        omega
      · intro i hi
        rw [h5 i (by show i < f.Size + f.Growth; omega)]
        show (if i < f.FileLen then f.Buf i else 0) = f.Buf i
        rw [if_pos (by omega)]
      · intro hz i hi
        refine h6 ?_ i hi
        intro j hj
        show (if j < f.FileLen then f.Buf j else 0) = 0
        split
        · exact hz j hj
        · rfl

theorem ensureGo_post (more : Nat) : ∀ (fuel : Nat) (f : File), 1 ≤ f.Growth →
    f.UsedSize + more ≤ f.Size + fuel * f.Growth →
    f.UsedSize + more ≤ (ensureGo fuel f more).Size := by
  intro fuel
  induction fuel with
  | zero =>
    intro f hg hle
    simpa using hle
  | succ fuel ih =>
    intro f hg hle
    simp only [ensureGo]
    split
    · assumption
    · refine ih (fileGrowStep f) hg ?_
      show f.UsedSize + more ≤ f.Size + f.Growth + fuel * f.Growth
      have hm : (fuel + 1) * f.Growth = fuel * f.Growth + f.Growth := by ring
      omega

theorem checkSizeAndEnsure_post (f : File) (more : Nat) (hg : 1 ≤ f.Growth) :
    f.UsedSize + more ≤ (f.CheckSizeAndEnsure more).Size := by
  refine ensureGo_post more _ f hg ?_
  have h1 : f.UsedSize + more + 1 ≤ (f.UsedSize + more + 1) * f.Growth := by
    have := Nat.mul_le_mul_left (f.UsedSize + more + 1) hg
    simpa using this
  omega

theorem getLastD_mem (l : List Nat) : ∀ (a : Nat), (a :: l).getLastD 0 ∈ a :: l := by
  induction l with
  | nil =>
    intro a
    rw [List.getLastD_cons]
    simp
  | cons b t ih =>
    intro a
    rw [List.getLastD_cons, List.getLastD_cons]
    have hh := ih b
    rw [List.getLastD_cons] at hh
    exact List.mem_cons_of_mem a hh

theorem chainOK_getLast_header (ht : HashTable) : ∀ (bs : List Nat) (b : Nat),
    ChainOK ht (b :: bs) → headerOf ht ((b :: bs).getLastD 0) = 0 := by
  intro bs
  induction bs with
  | nil =>
    intro b h
    cases h with
    | last _ _ h0 => simpa using h0
  | cons b' bs2 ih =>
    intro b h
    cases h with
    | cons _ _ _ hlink hlt hib hrest =>
      rw [List.getLastD_cons, List.getLastD_cons]
      have hh := ih b' hrest
      rw [List.getLastD_cons] at hh
      exact hh

theorem checkSizeAndEnsure_invariants (f : File) (more : Nat)
    (hsf : f.Size = f.FileLen) (hg : f.Growth = HASH_TABLE_GROWTH) :
    (f.CheckSizeAndEnsure more).UsedSize = f.UsedSize ∧
    (f.CheckSizeAndEnsure more).Growth = HASH_TABLE_GROWTH ∧
    (f.CheckSizeAndEnsure more).Size = (f.CheckSizeAndEnsure more).FileLen ∧
    f.Size ≤ (f.CheckSizeAndEnsure more).Size ∧
    f.UsedSize + more ≤ (f.CheckSizeAndEnsure more).Size ∧
    (∀ i, i < f.Size → (f.CheckSizeAndEnsure more).Buf i = f.Buf i) ∧
    ((∀ i, f.UsedSize ≤ i → f.Buf i = 0) →
      ∀ i, f.UsedSize ≤ i → (f.CheckSizeAndEnsure more).Buf i = 0) := by
  obtain ⟨h1, h2, h3, h4, h5, h6⟩ :=
    ensureGo_invariants more (f.UsedSize + more + 1) f hsf hg
  exact ⟨h3, h2, h1, h4,
    checkSizeAndEnsure_post f more (by rw [hg]; norm_num [HASH_TABLE_GROWTH]), h5, h6⟩

theorem slotsOfChain_append (ht : HashTable) (xs ys : List Nat) :
    slotsOfChain ht (xs ++ ys) = slotsOfChain ht xs ++ slotsOfChain ht ys := by
  simp [slotsOfChain]

theorem storedOK_append_zeros (ht : HashTable) (zs : List Nat) (addrs : List Nat)
    (l : List (Nat × Nat)) (h : StoredOK ht addrs l) :
    (∀ a ∈ zs, ∀ j, j < 21 → ht.File.Buf (a + j) = 0) →
    StoredOK ht (addrs ++ zs) l := by
  induction h with
  | nil addrs hz =>
    intro hzs
    refine .nil _ ?_
    intro a ha j hj
    rcases List.mem_append.mp ha with h1 | h2
    · exact hz a h1 j hj
    · exact hzs a h2 j hj
  | cons a addrs k v l hflag hk hv hkb hvb hrest ih =>
    intro hzs
    exact .cons a _ k v l hflag hk hv hkb hvb (ih hzs)

/-- Appending the freshly grown bucket `htOld.NumBuckets` to a chain whose
last header was relinked to it yields a well-formed chain in the grown
table. -/
theorem chainOK_grow (htOld htN : HashTable)
    (hNB : htN.NumBuckets = htOld.NumBuckets + 1)
    (hIB : htN.InitialBuckets = htOld.InitialBuckets)
    (hIBN : htOld.InitialBuckets ≤ htOld.NumBuckets)
    (hnew0 : headerOf htN htOld.NumBuckets = 0) :
    ∀ (bs : List Nat) (b : Nat), ChainOK htOld (b :: bs) →
      headerOf htN ((b :: bs).getLastD 0) = htOld.NumBuckets →
      (∀ x ∈ b :: bs, x ≠ (b :: bs).getLastD 0 → headerOf htN x = headerOf htOld x) →
      ChainOK htN ((b :: bs) ++ [htOld.NumBuckets]) := by
  intro bs
  induction bs with
  | nil =>
    intro b h hlast hpres
    have hb : b < htOld.NumBuckets := chainOK_head_lt htOld b [] h
    rw [List.getLastD_cons] at hlast
    refine ChainOK.cons b htOld.NumBuckets [] ?_ hb (by omega) ?_
    · simpa using hlast
    · exact ChainOK.last _ (by omega) hnew0
  | cons b' bs2 ih =>
    intro b h hlast hpres
    cases h with
    | cons _ _ _ hlink hlt hib hrest =>
      have hchain0 : ChainOK htOld (b :: b' :: bs2) := ChainOK.cons b b' bs2 hlink hlt hib hrest
      have hmem : bs2.getLastD b' ∈ b' :: bs2 := by
        have hh := getLastD_mem bs2 b'
        rw [List.getLastD_cons] at hh
        exact hh
      have hgt : b < bs2.getLastD b' := chainOK_lt_mem htOld (b' :: bs2) b hchain0 _ hmem
      have hblast : b ≠ (b :: b' :: bs2).getLastD 0 := by
        rw [List.getLastD_cons, List.getLastD_cons]
        omega
      rw [List.getLastD_cons, List.getLastD_cons] at hlast
      refine ChainOK.cons b b' (bs2 ++ [htOld.NumBuckets]) ?_ hlt (by omega) ?_
      · rw [hpres b (by simp) hblast, hlink]
      · refine ih b' hrest ?_ ?_
        · rw [List.getLastD_cons]
          exact hlast
        · intro x hx hxne
          refine hpres x (by simp [hx]) ?_
          rw [List.getLastD_cons, List.getLastD_cons]
          rw [List.getLastD_cons] at hxne
          exact hxne

theorem grow_Buf (ht : HashTable) (b : Nat) :
    (ht.grow b).File.Buf = bufPutUvarint (growFile ht).Buf
      ((growMid ht).lastBucket b * ht.BucketSize) ht.NumBuckets := rfl

theorem grow_Size (ht : HashTable) (b : Nat) :
    (ht.grow b).File.Size = (growFile ht).Size := rfl

theorem grow_FileLen (ht : HashTable) (b : Nat) :
    (ht.grow b).File.FileLen = (growFile ht).FileLen := rfl

theorem grow_Growth (ht : HashTable) (b : Nat) :
    (ht.grow b).File.Growth = (growFile ht).Growth := rfl

theorem grow_UsedSize_mid (ht : HashTable) (b : Nat) :
    (ht.grow b).File.UsedSize = (growFile ht).UsedSize + ht.BucketSize := rfl

theorem growChains_eq (chains : Nat → List Nat) (h0 n h : Nat) :
    growChains chains h0 n h = if h = h0 then chains h0 ++ [n] else chains h := rfl

theorem growFile_facts (ht : HashTable) (hsf : ht.File.Size = ht.File.FileLen)
    (hg : ht.File.Growth = HASH_TABLE_GROWTH) :
    (growFile ht).UsedSize = ht.File.UsedSize ∧
    (growFile ht).Growth = HASH_TABLE_GROWTH ∧
    (growFile ht).Size = (growFile ht).FileLen ∧
    ht.File.Size ≤ (growFile ht).Size ∧
    ht.File.UsedSize + ht.BucketSize ≤ (growFile ht).Size ∧
    (∀ i, i < ht.File.Size → (growFile ht).Buf i = ht.File.Buf i) ∧
    ((∀ i, ht.File.UsedSize ≤ i → ht.File.Buf i = 0) →
      ∀ i, ht.File.UsedSize ≤ i → (growFile ht).Buf i = 0) := by
  unfold growFile
  split
  · next hcs =>
    simp only [File.CheckSize, decide_eq_true_eq] at hcs
    exact ⟨rfl, hg, hsf, le_refl _, hcs, fun i _ => rfl, fun hz => hz⟩
  · exact checkSizeAndEnsure_invariants ht.File ht.BucketSize hsf hg

/-- `grow h0` preserves the representation: the chain of head `h0` gains
the fresh bucket `NumBuckets` at its end, and the stored contents of every
chain are untouched. -/
theorem rep_grow (ht : HashTable) (chains : Nat → List Nat) (m : Nat → List (Nat × Nat))
    (hw : RepWith ht chains m) (h0 : Nat) (hh0 : h0 < ht.InitialBuckets)
    (hN64 : ht.NumBuckets < 2 ^ 64) :
    RepWith (ht.grow h0) (growChains chains h0 ht.NumBuckets) m := by
  obtain ⟨bs0, hbs0⟩ : ∃ bs, chains h0 = h0 :: bs := by
    have hhead := hw.chain_head h0 hh0
    cases hch : chains h0 with
    | nil => rw [hch] at hhead; simp at hhead
    | cons x xs =>
      rw [hch] at hhead
      simp only [List.head?_cons, Option.some.injEq] at hhead
      exact ⟨xs, by rw [hhead]⟩
  have hBS : ht.BucketSize = 10 + 21 * ht.PerBucket := by
    rw [hw.bucketSize_eq]
    norm_num [BUCKET_HEADER_SIZE, ENTRY_SIZE]
  have hBSge : 31 ≤ ht.BucketSize := by
    have := hw.pb_pos
    omega
  obtain ⟨hfU, hfGr, hfSF, hfSle, hfRoom, hfLt, hfZero⟩ :=
    growFile_facts ht hw.size_eq_filelen hw.growth_eq
  have hfZ : ∀ i, ht.File.UsedSize ≤ i → (growFile ht).Buf i = 0 := hfZero hw.zero_tail
  have hchain0 : ChainOK ht (h0 :: bs0) := by
    rw [← hbs0]
    exact hw.chain_ok h0 hh0
  have hchain1 : ChainOK (growMid ht) (h0 :: bs0) := by
    refine chainOK_mono ht (growMid ht) rfl (le_refl _) rfl _ hchain0 ?_
    intro b hb j hj
    have hblt : b < ht.NumBuckets := chainOK_mem_lt ht _ hchain0 b hb
    show (growFile ht).Buf (b * ht.BucketSize + j) = ht.File.Buf (b * ht.BucketSize + j)
    refine hfLt _ ?_
    have h1 : (b + 1) * ht.BucketSize ≤ ht.NumBuckets * ht.BucketSize :=
      Nat.mul_le_mul_right _ (by omega)
    have h2 : (b + 1) * ht.BucketSize = b * ht.BucketSize + ht.BucketSize := by ring
    have h3 := hw.used_eq
    have h4 := hw.used_le_size
    omega
  have hlastB : (growMid ht).lastBucket h0 = (h0 :: bs0).getLastD 0 := by
    have hlen := chainOK_length ht bs0 h0 hchain0
    exact lastBucketAux_chain (growMid ht) bs0 h0 ((growMid ht).NumBuckets + 1) hchain1
      (by show bs0.length ≤ ht.NumBuckets + 1; omega)
  have hbLmem : (h0 :: bs0).getLastD 0 ∈ h0 :: bs0 := getLastD_mem bs0 h0
  have hbLlt : (h0 :: bs0).getLastD 0 < ht.NumBuckets :=
    chainOK_mem_lt ht _ hchain0 _ hbLmem
  have hwlen : (putUvarintBytes ht.NumBuckets).length ≤ 10 :=
    putUvarintBytes_length _ hN64
  have hGbuf : ∀ i, (i < (h0 :: bs0).getLastD 0 * ht.BucketSize ∨
      (h0 :: bs0).getLastD 0 * ht.BucketSize + 10 ≤ i) →
      (ht.grow h0).File.Buf i = (growFile ht).Buf i := by
    intro i hi
    rw [grow_Buf, hlastB]
    show writeBytes (growFile ht).Buf _ (putUvarintBytes ht.NumBuckets) i = _
    rcases hi with h | h
    · exact writeBytes_eq_of_lt _ _ _ i h
    · exact writeBytes_eq_of_ge _ _ _ i (by omega)
  have hkeep : ∀ i, i < ht.File.UsedSize →
      (i < (h0 :: bs0).getLastD 0 * ht.BucketSize ∨
        (h0 :: bs0).getLastD 0 * ht.BucketSize + 10 ≤ i) →
      (ht.grow h0).File.Buf i = ht.File.Buf i := by
    intro i hi hd
    rw [hGbuf i hd]
    refine hfLt _ ?_
    have := hw.used_le_size
    omega
  have hpres : ∀ x, x < ht.NumBuckets → x ≠ (h0 :: bs0).getLastD 0 → ∀ j, j < 10 →
      (ht.grow h0).File.Buf (x * ht.BucketSize + j) = ht.File.Buf (x * ht.BucketSize + j) := by
    intro x hx hxne j hj
    have h1 : (x + 1) * ht.BucketSize ≤ ht.NumBuckets * ht.BucketSize :=
      Nat.mul_le_mul_right _ (by omega)
    have h2 : (x + 1) * ht.BucketSize = x * ht.BucketSize + ht.BucketSize := by ring
    have hiU : x * ht.BucketSize + j < ht.File.UsedSize := by
      rw [hw.used_eq]
      omega
    rcases Nat.lt_or_ge x ((h0 :: bs0).getLastD 0) with hlt | hge
    · refine hkeep _ hiU (Or.inl ?_)
      have h3 : (x + 1) * ht.BucketSize ≤ (h0 :: bs0).getLastD 0 * ht.BucketSize :=
        Nat.mul_le_mul_right _ (by omega)
      omega
    · have hgt : (h0 :: bs0).getLastD 0 < x := by omega
      refine hkeep _ hiU (Or.inr ?_)
      have h3 : ((h0 :: bs0).getLastD 0 + 1) * ht.BucketSize ≤ x * ht.BucketSize :=
        Nat.mul_le_mul_right _ (by omega)
      have h4 : ((h0 :: bs0).getLastD 0 + 1) * ht.BucketSize
          = (h0 :: bs0).getLastD 0 * ht.BucketSize + ht.BucketSize := by ring
      omega
  have hslotkeep : ∀ b, b < ht.NumBuckets → ∀ e, e < ht.PerBucket → ∀ j, j < 21 →
      (ht.grow h0).File.Buf (ht.entryAddr b e + j) = ht.File.Buf (ht.entryAddr b e + j) := by
    intro b hb e he j hj
    have hbounds := entryAddr_byte_bounds ht hw.bucketSize_eq b e j he hj
    have h1 : (b + 1) * ht.BucketSize ≤ ht.NumBuckets * ht.BucketSize :=
      Nat.mul_le_mul_right _ (by omega)
    have hiU : ht.entryAddr b e + j < ht.File.UsedSize := by
      rw [hw.used_eq]
      omega
    rcases Nat.lt_trichotomy b ((h0 :: bs0).getLastD 0) with hlt | heq | hgt
    · refine hkeep _ hiU (Or.inl ?_)
      have h2 : (b + 1) * ht.BucketSize ≤ (h0 :: bs0).getLastD 0 * ht.BucketSize :=
        Nat.mul_le_mul_right _ (by omega)
      omega
    · refine hkeep _ hiU (Or.inr ?_)
      rw [← heq]
      exact hbounds.1
    · refine hkeep _ hiU (Or.inr ?_)
      have h2 : ((h0 :: bs0).getLastD 0 + 1) * ht.BucketSize ≤ b * ht.BucketSize :=
        Nat.mul_le_mul_right _ (by omega)
      have h3 : ((h0 :: bs0).getLastD 0 + 1) * ht.BucketSize
          = (h0 :: bs0).getLastD 0 * ht.BucketSize + ht.BucketSize := by ring
      omega
  have hheadN : headerOf (ht.grow h0) ((h0 :: bs0).getLastD 0) = ht.NumBuckets := by
    show uvarintAt (ht.grow h0).File.Buf ((h0 :: bs0).getLastD 0 * ht.BucketSize) = _
    rw [grow_Buf, hlastB]
    exact uvarintAt_roundtrip (growFile ht).Buf _ _ hN64
  have hN0 : headerOf (ht.grow h0) ht.NumBuckets = 0 := by
    show uvarintAt (ht.grow h0).File.Buf (ht.NumBuckets * ht.BucketSize) = 0
    have hge : (h0 :: bs0).getLastD 0 * ht.BucketSize + 10 ≤ ht.NumBuckets * ht.BucketSize := by
      have h1 : ((h0 :: bs0).getLastD 0 + 1) * ht.BucketSize ≤ ht.NumBuckets * ht.BucketSize :=
        Nat.mul_le_mul_right _ (by omega)
      have h2 : ((h0 :: bs0).getLastD 0 + 1) * ht.BucketSize
          = (h0 :: bs0).getLastD 0 * ht.BucketSize + ht.BucketSize := by ring
      omega
    refine uvarintAt_of_first_zero _ _ ?_
    rw [hGbuf (ht.NumBuckets * ht.BucketSize) (Or.inr hge)]
    exact hfZ _ (le_of_eq hw.used_eq)
  refine ⟨?_, ?_, ?_, ?_, ?_, ?_, ?_, ?_, ?_, ?_, ?_, ?_, ?_⟩
  · exact hw.pb_pos
  · exact hw.bucketSize_eq
  · exact hw.ib_eq
  · show ht.InitialBuckets ≤ ht.NumBuckets + 1
    have := hw.ib_le
    omega
  · show (growFile ht).UsedSize + ht.BucketSize = (ht.NumBuckets + 1) * ht.BucketSize
    rw [hfU, hw.used_eq]
    ring
  · show (growFile ht).UsedSize + ht.BucketSize ≤ (growFile ht).Size
    rw [hfU]
    exact hfRoom
  · show (growFile ht).Size = (growFile ht).FileLen
    exact hfSF
  · show (growFile ht).Growth = HASH_TABLE_GROWTH
    exact hfGr
  · intro i hi
    rw [grow_UsedSize_mid, hfU] at hi
    have hge : (h0 :: bs0).getLastD 0 * ht.BucketSize + 10 ≤ i := by
      have h1 : ((h0 :: bs0).getLastD 0 + 1) * ht.BucketSize ≤ ht.NumBuckets * ht.BucketSize :=
        Nat.mul_le_mul_right _ (by omega)
      have h2 : ((h0 :: bs0).getLastD 0 + 1) * ht.BucketSize
          = (h0 :: bs0).getLastD 0 * ht.BucketSize + ht.BucketSize := by ring
      have h3 := hw.used_eq
      omega
    rw [hGbuf i (Or.inr hge)]
    exact hfZ i (by omega)
  · intro h hh
    rw [grow_InitialBuckets] at hh
    rw [growChains_eq]
    by_cases hc : h = h0
    · rw [hc, if_pos rfl, hbs0]
      simp
    · rw [if_neg hc]
      exact hw.chain_head h hh
  · intro h hh
    rw [grow_InitialBuckets] at hh
    rw [growChains_eq]
    by_cases hc : h = h0
    · rw [hc, if_pos rfl, hbs0]
      refine chainOK_grow ht (ht.grow h0) rfl rfl hw.ib_le hN0 bs0 h0 hchain0 hheadN ?_
      intro x hx hxne
      have hxlt : x < ht.NumBuckets := chainOK_mem_lt ht _ hchain0 x hx
      show uvarintAt (ht.grow h0).File.Buf (x * ht.BucketSize)
        = uvarintAt ht.File.Buf (x * ht.BucketSize)
      exact uvarintAt_congr _ _ _ (fun j hj => hpres x hxlt hxne j hj)
    · rw [if_neg hc]
      refine chainOK_mono ht (ht.grow h0) rfl (Nat.le_succ _) rfl _ (hw.chain_ok h hh) ?_
      intro b hb j hj
      have hblt : b < ht.NumBuckets := chainOK_mem_lt ht _ (hw.chain_ok h hh) b hb
      have hbne : b ≠ (h0 :: bs0).getLastD 0 := by
        intro he2
        exact hw.chain_disj h h0 hh hh0 hc b hb (by rw [hbs0, he2]; exact hbLmem)
      exact hpres b hblt hbne j hj
  · intro h h' hh hh' hne b hbm hbm'
    rw [grow_InitialBuckets] at hh hh'
    rw [growChains_eq] at hbm
    rw [growChains_eq] at hbm'
    by_cases hc : h = h0 <;> by_cases hc' : h' = h0
    · exact hne (hc.trans hc'.symm)
    · rw [if_pos hc] at hbm
      rw [if_neg hc'] at hbm'
      rw [hc] at hh hne
      rcases List.mem_append.mp hbm with hb1 | hb2
      · exact hw.chain_disj h0 h' hh hh' hne b hb1 hbm'
      · have hbN : b = ht.NumBuckets := by simpa using hb2
        have := chainOK_mem_lt ht _ (hw.chain_ok h' hh') b hbm'
        omega
    · rw [if_neg hc] at hbm
      rw [if_pos hc'] at hbm'
      rw [hc'] at hh' hne
      rcases List.mem_append.mp hbm' with hb1 | hb2
      · exact hw.chain_disj h h0 hh hh' hne b hbm hb1
      · have hbN : b = ht.NumBuckets := by simpa using hb2
        have := chainOK_mem_lt ht _ (hw.chain_ok h hh) b hbm
        omega
    · rw [if_neg hc] at hbm
      rw [if_neg hc'] at hbm'
      exact hw.chain_disj h h' hh hh' hne b hbm hbm'
  · intro h hh
    rw [grow_InitialBuckets] at hh
    rw [growChains_eq]
    by_cases hc : h = h0
    · rw [hc, if_pos rfl]
      have hslots : slotsOfChain (ht.grow h0) (chains h0 ++ [ht.NumBuckets])
          = slotsOfChain (ht.grow h0) (chains h0)
            ++ slotsOfChain (ht.grow h0) [ht.NumBuckets] :=
        slotsOfChain_append _ _ _
      rw [hslots]
      refine storedOK_append_zeros _ _ _ _ ?_ ?_
      · show StoredOK (ht.grow h0) (slotsOfChain ht (chains h0)) (m h0)
        refine storedOK_congr ht (ht.grow h0) _ _ (hw.stored h0 hh0) ?_
        intro a ha j hj
        obtain ⟨b, hbm, e, he, hae⟩ := mem_slotsOfChain ht (chains h0) a ha
        subst hae
        have hblt : b < ht.NumBuckets := chainOK_mem_lt ht _ (hw.chain_ok h0 hh0) b hbm
        exact hslotkeep b hblt e he j hj
      · intro a ha j hj
        have ha' : a ∈ slotsOfChain ht [ht.NumBuckets] := ha
        obtain ⟨b, hbm, e, he, hae⟩ := mem_slotsOfChain ht [ht.NumBuckets] a ha'
        have hbN : b = ht.NumBuckets := by simpa using hbm
        subst hbN
        subst hae
        have hbounds := entryAddr_byte_bounds ht hw.bucketSize_eq ht.NumBuckets e j he hj
        have hge : (h0 :: bs0).getLastD 0 * ht.BucketSize + 10
            ≤ ht.entryAddr ht.NumBuckets e + j := by
          have h1 : ((h0 :: bs0).getLastD 0 + 1) * ht.BucketSize
              ≤ ht.NumBuckets * ht.BucketSize :=
            Nat.mul_le_mul_right _ (by omega)
          have h2 : ((h0 :: bs0).getLastD 0 + 1) * ht.BucketSize
              = (h0 :: bs0).getLastD 0 * ht.BucketSize + ht.BucketSize := by ring
          omega
        rw [hGbuf _ (Or.inr hge)]
        refine hfZ _ ?_
        rw [hw.used_eq]
        have := hbounds.1
        omega
    · rw [if_neg hc]
      show StoredOK (ht.grow h0) (slotsOfChain ht (chains h)) (m h)
      refine storedOK_congr ht (ht.grow h0) _ _ (hw.stored h hh) ?_
      intro a ha j hj
      obtain ⟨b, hbm, e, he, hae⟩ := mem_slotsOfChain ht (chains h) a ha
      subst hae
      have hblt : b < ht.NumBuckets := chainOK_mem_lt ht _ (hw.chain_ok h hh) b hbm
      exact hslotkeep b hblt e he j hj

theorem hashKey_lt (ht : HashTable) (hib : ht.InitialBuckets = 2 ^ ht.HashBits) (key : Nat) :
    ht.hashKey key < ht.InitialBuckets := by
  rw [hib]
  show key &&& ((1 <<< ht.HashBits) - 1) < 2 ^ ht.HashBits
  have h : (1 <<< ht.HashBits) - 1 = 2 ^ ht.HashBits - 1 := by
    rw [Nat.shiftLeft_eq, one_mul]
  rw [h]
  have h1 : key &&& (2 ^ ht.HashBits - 1) ≤ 2 ^ ht.HashBits - 1 := Nat.and_le_right
  have h2 : 0 < 2 ^ ht.HashBits := Nat.pos_pow_of_pos _ (by norm_num)
  omega

theorem slotsOfChain_length (ht : HashTable) (bs : List Nat) :
    (slotsOfChain ht bs).length = bs.length * ht.PerBucket := by
  induction bs with
  | nil => simp [slotsOfChain]
  | cons b t ih =>
    rw [slotsOfChain_cons, List.length_append, ih]
    simp only [slotsOfBucketFrom, List.length_map, List.length_range', List.length_cons]
    have h : (t.length + 1) * ht.PerBucket = t.length * ht.PerBucket + ht.PerBucket := by ring
    omega

theorem chain_slots_fuel (ht : HashTable) (b : Nat) (bs : List Nat)
    (h : ChainOK ht (b :: bs)) :
    (slotsOfChain ht (b :: bs)).length < scanFuel ht := by
  have hlen := chainOK_length ht bs b h
  rw [slotsOfChain_length]
  simp only [List.length_cons, scanFuel]
  have h1 : (bs.length + 1) * ht.PerBucket ≤ ht.NumBuckets * ht.PerBucket :=
    Nat.mul_le_mul_right _ (by omega)
  have h2 : ht.NumBuckets * ht.PerBucket ≤ (ht.NumBuckets + 2) * (ht.PerBucket + 1) :=
    Nat.mul_le_mul (by omega) (by omega)
  omega

theorem rep_congr (ht : HashTable) (m m' : Nat → List (Nat × Nat))
    (hmm : ∀ h, m h = m' h) (h : Rep ht m) : Rep ht m' := by
  have he : m = m' := funext hmm
  rwa [← he]

/-- `Get(key, 0, always-true)` on a well-represented table returns exactly
the stored pairs of the chain of `hashKey key` whose full key equals `key`,
in order. -/
theorem get_of_rep (ht : HashTable) (chains : Nat → List Nat) (m : Nat → List (Nat × Nat))
    (hw : RepWith ht chains m) (key : Nat) :
    ht.Get key 0 alwaysTrue =
      some (((m (ht.hashKey key)).filter fun p => p.1 = key).map Prod.fst,
            ((m (ht.hashKey key)).filter fun p => p.1 = key).map Prod.snd) := by
  have hh0 : ht.hashKey key < ht.InitialBuckets := hashKey_lt ht hw.ib_eq key
  obtain ⟨bs0, hbs0⟩ : ∃ bs, chains (ht.hashKey key) = ht.hashKey key :: bs := by
    have hhead := hw.chain_head _ hh0
    cases hch : chains (ht.hashKey key) with
    | nil => rw [hch] at hhead; simp at hhead
    | cons x xs =>
      rw [hch] at hhead
      simp only [List.head?_cons, Option.some.injEq] at hhead
      exact ⟨xs, by rw [hhead]⟩
  have hchain : ChainOK ht (ht.hashKey key :: bs0) := by
    rw [← hbs0]
    exact hw.chain_ok _ hh0
  have hst : StoredOK ht (slotsFrom ht (ht.hashKey key) 0 bs0) (m (ht.hashKey key)) := by
    rw [slotsFrom_zero, ← hbs0]
    exact hw.stored _ hh0
  have hfuel : (slotsFrom ht (ht.hashKey key) 0 bs0).length < scanFuel ht := by
    rw [slotsFrom_zero]
    exact chain_slots_fuel ht _ _ hchain
  have hres := getGo_chain ht key (scanFuel ht) (ht.hashKey key) 0 bs0 (m (ht.hashKey key))
    [] [] 0 hchain hw.pb_pos hst hfuel
  simpa [HashTable.Get] using hres

/-- The inner `Put` scan on a well-represented table: it claims the first
free slot of the chain when one exists, and reports a full chain
otherwise. -/
theorem putScan_of_rep (ht : HashTable) (chains : Nat → List Nat) (m : Nat → List (Nat × Nat))
    (hw : RepWith ht chains m) (key val : Nat) :
    ((m (ht.hashKey key)).length < (slotsOfChain ht (chains (ht.hashKey key))).length →
      putScanGo ht key val (scanFuel ht) (ht.hashKey key) 0 =
        some (some (writeEntry ht
          ((slotsOfChain ht (chains (ht.hashKey key))).getD (m (ht.hashKey key)).length 0)
          key val))) ∧
    ((m (ht.hashKey key)).length = (slotsOfChain ht (chains (ht.hashKey key))).length →
      putScanGo ht key val (scanFuel ht) (ht.hashKey key) 0 = some none) := by
  have hh0 : ht.hashKey key < ht.InitialBuckets := hashKey_lt ht hw.ib_eq key
  obtain ⟨bs0, hbs0⟩ : ∃ bs, chains (ht.hashKey key) = ht.hashKey key :: bs := by
    have hhead := hw.chain_head _ hh0
    cases hch : chains (ht.hashKey key) with
    | nil => rw [hch] at hhead; simp at hhead
    | cons x xs =>
      rw [hch] at hhead
      simp only [List.head?_cons, Option.some.injEq] at hhead
      exact ⟨xs, by rw [hhead]⟩
  have hchain : ChainOK ht (ht.hashKey key :: bs0) := by
    rw [← hbs0]
    exact hw.chain_ok _ hh0
  have hst : StoredOK ht (slotsFrom ht (ht.hashKey key) 0 bs0) (m (ht.hashKey key)) := by
    rw [slotsFrom_zero, ← hbs0]
    exact hw.stored _ hh0
  have hfuel : (slotsFrom ht (ht.hashKey key) 0 bs0).length < scanFuel ht := by
    rw [slotsFrom_zero]
    exact chain_slots_fuel ht _ _ hchain
  have hres := putScanGo_chain ht key val (scanFuel ht) (ht.hashKey key) 0 bs0
    (m (ht.hashKey key)) hchain hw.pb_pos hst hfuel
  rw [slotsFrom_zero, ← hbs0] at hres
  exact hres

/-- Entry stores do not touch the geometry fields. -/
theorem writeEntry_NumBuckets (ht : HashTable) (a k v : Nat) :
    (writeEntry ht a k v).NumBuckets = ht.NumBuckets := rfl

/-- `Put` on a well-represented table succeeds, appends the pair to the
chain of its head bucket, and grows the table by at most one bucket. -/
theorem put_of_rep (ht : HashTable) (chains : Nat → List Nat) (m : Nat → List (Nat × Nat))
    (hw : RepWith ht chains m) (key val : Nat) (hk : key < 2 ^ 64) (hv : val < 2 ^ 64)
    (hN64 : ht.NumBuckets < 2 ^ 64) :
    ∃ ht', ht.Put key val = some ht' ∧
      Rep ht' (fun h => if h = ht.hashKey key then m h ++ [(key, val)] else m h) ∧
      ht'.PerBucket = ht.PerBucket ∧ ht'.BucketSize = ht.BucketSize ∧
      ht'.HashBits = ht.HashBits ∧ ht'.InitialBuckets = ht.InitialBuckets ∧
      ht'.NumBuckets ≤ ht.NumBuckets + 1 := by
  have hh0 : ht.hashKey key < ht.InitialBuckets := hashKey_lt ht hw.ib_eq key
  have hsc := putScan_of_rep ht chains m hw key val
  have hstlen : (m (ht.hashKey key)).length
      ≤ (slotsOfChain ht (chains (ht.hashKey key))).length :=
    storedOK_length ht _ _ (hw.stored _ hh0)
  rcases Nat.lt_or_ge (m (ht.hashKey key)).length
      (slotsOfChain ht (chains (ht.hashKey key))).length with hlt | hge
  · have hput := hsc.1 hlt
    refine ⟨writeEntry ht
        ((slotsOfChain ht (chains (ht.hashKey key))).getD (m (ht.hashKey key)).length 0)
        key val, ?_, ?_, rfl, rfl, rfl, rfl, Nat.le_succ _⟩
    · show putFuelGo 2 ht key val = _
      rw [putFuelGo_succ, hput]
    · exact ⟨chains, rep_write ht chains m hw (ht.hashKey key) hh0 key val hk hv hlt⟩
  · have heq : (m (ht.hashKey key)).length
        = (slotsOfChain ht (chains (ht.hashKey key))).length := by omega
    have hscan := hsc.2 heq
    have hG := rep_grow ht chains m hw (ht.hashKey key) hh0 hN64
    have hkeyG : (ht.grow (ht.hashKey key)).hashKey key = ht.hashKey key := rfl
    have hchainsG : growChains chains (ht.hashKey key) ht.NumBuckets (ht.hashKey key)
        = chains (ht.hashKey key) ++ [ht.NumBuckets] := by
      rw [growChains_eq, if_pos rfl]
    have hlen2 : (m (ht.hashKey key)).length <
        (slotsOfChain (ht.grow (ht.hashKey key))
          (growChains chains (ht.hashKey key) ht.NumBuckets (ht.hashKey key))).length := by
      rw [hchainsG, slotsOfChain_append, List.length_append]
      have hsame : slotsOfChain (ht.grow (ht.hashKey key)) (chains (ht.hashKey key))
          = slotsOfChain ht (chains (ht.hashKey key)) := rfl
      rw [hsame]
      have hone : (slotsOfChain (ht.grow (ht.hashKey key)) [ht.NumBuckets]).length
          = ht.PerBucket := by
        rw [slotsOfChain_length]
        show 1 * (ht.grow (ht.hashKey key)).PerBucket = ht.PerBucket
        rw [grow_PerBucket, one_mul]
      rw [hone]
      have := hw.pb_pos
      omega
  -- the grown table writes into its fresh bucket
    have hscG := putScan_of_rep (ht.grow (ht.hashKey key))
      (growChains chains (ht.hashKey key) ht.NumBuckets) m hG key val
    have hwrite := hscG.1 hlen2
    refine ⟨writeEntry (ht.grow (ht.hashKey key))
        ((slotsOfChain (ht.grow (ht.hashKey key))
            (growChains chains (ht.hashKey key) ht.NumBuckets
              ((ht.grow (ht.hashKey key)).hashKey key))).getD
          (m ((ht.grow (ht.hashKey key)).hashKey key)).length 0)
        key val, ?_, ?_, rfl, rfl, rfl, rfl, ?_⟩
    · show putFuelGo 2 ht key val = _
      rw [putFuelGo_succ, hscan]
      show putFuelGo 1 (ht.grow (ht.hashKey key)) key val = _
      rw [putFuelGo_succ, hwrite]
    · refine ⟨growChains chains (ht.hashKey key) ht.NumBuckets, ?_⟩
      exact rep_write (ht.grow (ht.hashKey key))
        (growChains chains (ht.hashKey key) ht.NumBuckets) m hG
        ((ht.grow (ht.hashKey key)).hashKey key)
        (hashKey_lt _ hG.ib_eq key) key val hk hv hlen2
    · show (ht.grow (ht.hashKey key)).NumBuckets ≤ ht.NumBuckets + 1
      rw [grow_NumBuckets]

/-- Running a sequence of `Put`s from a well-represented state succeeds and
appends each pair to the model of its head chain, in order. -/
theorem runPuts_rep : ∀ (ps : List (Nat × Nat)) (hb : Nat) (ht : HashTable)
    (chains : Nat → List Nat) (m : Nat → List (Nat × Nat)),
    RepWith ht chains m → ht.HashBits = hb →
    (∀ p ∈ ps, p.1 < 2 ^ 64 ∧ p.2 < 2 ^ 64) →
    ht.NumBuckets + ps.length < 2 ^ 64 →
    ∃ ht', runPuts ht ps = some ht' ∧ ht'.HashBits = hb ∧
      Rep ht' (fun h => m h ++ chainModel hb ps h) := by
  intro ps
  induction ps with
  | nil =>
    intro hb ht chains m hw hhb hbound hN
    refine ⟨ht, rfl, hhb, ?_⟩
    refine rep_congr ht m _ (fun h => ?_) ⟨chains, hw⟩
    simp [chainModel]
  | cons p ps ih =>
    intro hb ht chains m hw hhb hbound hN
    obtain ⟨hk, hv⟩ := hbound p (by simp)
    obtain ⟨ht1, hput, hrep1, hPB, hBS, hHB, hIB, hNB⟩ :=
      put_of_rep ht chains m hw p.1 p.2 hk hv
        (by simp only [List.length_cons] at hN; omega)
    obtain ⟨chains1, hw1⟩ := hrep1
    obtain ⟨ht', hrun, hhb', hrep'⟩ :=
      ih hb ht1 chains1 _ hw1 (hHB.trans hhb)
        (fun q hq => hbound q (by simp [hq]))
        (by simp only [List.length_cons] at hN; omega)
    refine ⟨ht', ?_, hhb', ?_⟩
    · show (p :: ps).foldlM (fun h q => h.Put q.1 q.2) ht = some ht'
      rw [List.foldlM_cons, hput]
      simpa [runPuts] using hrun
    · refine rep_congr ht' _ _ (fun h => ?_) hrep'
      have hkey : ht.hashKey p.1 = p.1 &&& ((1 <<< hb) - 1) := by
        rw [HashTable.hashKey, hhb]
      simp only [chainModel, List.filter_cons]
      by_cases hcs : (p.1 &&& ((1 <<< hb) - 1)) = h
      · rw [if_pos (by rw [hkey]; exact hcs.symm)]
        rw [if_pos (by simpa using hcs)]
        simp
      · rw [if_neg (fun e => hcs (by rw [← hkey]; exact e.symm))]
        rw [if_neg (by simpa using hcs)]

theorem nextBucket_zero (ht : HashTable) (hzero : ∀ i, ht.File.Buf i = 0) (b : Nat) :
    ht.nextBucket b = 0 := by
  simp only [HashTable.nextBucket]
  split
  · rfl
  · rw [uvarintAt_of_first_zero _ _ (hzero _)]
    simp

theorem lastBucket_zero (ht : HashTable) (hzero : ∀ i, ht.File.Buf i = 0) (b : Nat) :
    ht.lastBucket b = b := by
  show lastBucketAux ht (ht.NumBuckets + 1) b = b
  simp only [lastBucketAux]
  rw [nextBucket_zero ht hzero b]
  simp

theorem headLoopGo_zero (ht : HashTable) (hzero : ∀ i, ht.File.Buf i = 0) :
    ∀ (fuel i longest : Nat), (∀ k, k < fuel → i + k + 1 ≤ longest) →
    headLoopGo ht fuel i longest = longest := by
  intro fuel
  induction fuel with
  | zero => intro i longest _; rfl
  | succ fuel ih =>
    intro i longest hbound
    simp only [headLoopGo]
    rw [lastBucket_zero ht hzero i]
    have hni : ¬ (longest < i + 1 ∧ i + 1 ≤ ht.NumBuckets) := by
      have := hbound 0 (by omega)
      omega
    rw [if_neg hni]
    refine ih (i + 1) longest (fun k hk => ?_)
    have := hbound (k + 1) (by omega)
    omega

/-- The rounded-up `CheckSizeAndEnsure` request of `OpenHash` reaches the
needed size. -/
theorem ensure_covers (f2 : File) (need bsz : Nat) (hg2 : 1 ≤ f2.Growth) (hbsz : 1 ≤ bsz)
    (hu : f2.UsedSize = f2.Size) :
    need ≤ (f2.CheckSizeAndEnsure (((need - f2.Size) / bsz + 1) * bsz)).Size := by
  have hpost := checkSizeAndEnsure_post f2 (((need - f2.Size) / bsz + 1) * bsz) hg2
  have hid : ((need - f2.Size) / bsz + 1) * bsz = bsz * ((need - f2.Size) / bsz) + bsz := by
    ring
  have hdm := Nat.div_add_mod (need - f2.Size) bsz
  have hmod := Nat.mod_lt (need - f2.Size) (show 0 < bsz by omega)
  omega

/-- `openHashFile` on an all-zero file recovers exactly the initial-bucket
geometry regardless of whether the zero file is already large enough. -/
theorem openHashFile_facts (hashBits perBucket : Nat) (f : File)
    (hzero : ∀ i, f.Buf i = 0) (hsf : f.Size = f.FileLen)
    (hg : f.Growth = HASH_TABLE_GROWTH) :
    (openHashFile hashBits perBucket f).NumBuckets = 2 ^ hashBits ∧
    (openHashFile hashBits perBucket f).File.UsedSize
      = 2 ^ hashBits * (BUCKET_HEADER_SIZE + ENTRY_SIZE * perBucket) ∧
    (openHashFile hashBits perBucket f).File.UsedSize
      ≤ (openHashFile hashBits perBucket f).File.Size ∧
    (openHashFile hashBits perBucket f).File.Size
      = (openHashFile hashBits perBucket f).File.FileLen ∧
    (openHashFile hashBits perBucket f).File.Growth = HASH_TABLE_GROWTH := by
  have hlongest : ∀ ht0 : HashTable, ht0.File.Buf = f.Buf →
      headLoopGo ht0 (2 ^ hashBits) 0 (2 ^ hashBits) = 2 ^ hashBits := by
    intro ht0 hb0
    refine headLoopGo_zero ht0 (fun i => by rw [hb0]; exact hzero i) _ _ _ ?_
    intro k hk
    omega
  simp only [openHashFile]
  rw [hlongest]
  · split
    · next hlt =>
      refine ⟨rfl, rfl, ?_, ?_, ?_⟩
      · exact ensure_covers _ _ _ (by rw [hg]; norm_num [HASH_TABLE_GROWTH])
          (by simp only [BUCKET_HEADER_SIZE, ENTRY_SIZE]; omega) rfl
      · exact (checkSizeAndEnsure_invariants
          { UsedSize := f.Size, Size := f.Size, Growth := f.Growth, FileLen := f.FileLen,
            Buf := f.Buf } _ hsf hg).2.2.1
      · exact (checkSizeAndEnsure_invariants
          { UsedSize := f.Size, Size := f.Size, Growth := f.Growth, FileLen := f.FileLen,
            Buf := f.Buf } _ hsf hg).2.1
    · next hge =>
      refine ⟨rfl, rfl, ?_, hsf, hg⟩
      show 2 ^ hashBits * (BUCKET_HEADER_SIZE + ENTRY_SIZE * perBucket) ≤ f.Size
      exact Nat.le_of_not_lt hge
  · rfl

/-- A freshly opened table is well-represented: every head chain is the
single head bucket and every chain is empty. -/
theorem rep_fresh (hashBits perBucket : Nat) (hpb : 1 ≤ perBucket) :
    RepWith (openFresh hashBits perBucket) (fun h => [h]) (fun _ => []) := by
  have hbase : ((openEmptyFile HASH_TABLE_GROWTH).Size
        = (openEmptyFile HASH_TABLE_GROWTH).FileLen)
      ∧ (openEmptyFile HASH_TABLE_GROWTH).Growth = HASH_TABLE_GROWTH := by
    have h := checkSizeAndEnsure_invariants
      { UsedSize := 0, Size := 0, Growth := HASH_TABLE_GROWTH, FileLen := 0, Buf := fun _ => 0 }
      HASH_TABLE_GROWTH rfl rfl
    exact ⟨h.2.2.1, h.2.1⟩
  have hzero : ∀ i, (openFresh hashBits perBucket).File.Buf i = 0 :=
    openHashFile_buf hashBits perBucket _ (openEmptyFile_buf HASH_TABLE_GROWTH)
  obtain ⟨hNB, hUS, hUle, hSF, hGr⟩ :=
    openHashFile_facts hashBits perBucket (openEmptyFile HASH_TABLE_GROWTH)
      (openEmptyFile_buf HASH_TABLE_GROWTH) hbase.1 hbase.2
  have hPB : (openFresh hashBits perBucket).PerBucket = perBucket :=
    openHashFile_PerBucket hashBits perBucket _
  have hHB : (openFresh hashBits perBucket).HashBits = hashBits :=
    openHashFile_HashBits hashBits perBucket _
  have hBS : (openFresh hashBits perBucket).BucketSize
      = BUCKET_HEADER_SIZE + ENTRY_SIZE * perBucket :=
    openHashFile_BucketSize hashBits perBucket _
  have hIB : (openFresh hashBits perBucket).InitialBuckets = 2 ^ hashBits :=
    openHashFile_InitialBuckets hashBits perBucket _
  have hNB' : (openFresh hashBits perBucket).NumBuckets = 2 ^ hashBits := hNB
  refine ⟨?_, ?_, ?_, ?_, ?_, ?_, ?_, ?_, ?_, ?_, ?_, ?_, ?_⟩
  · rw [hPB]
    exact hpb
  · rw [hBS, hPB]
  · rw [hIB, hHB]
  · rw [hIB, hNB']
  · show (openFresh hashBits perBucket).File.UsedSize
      = (openFresh hashBits perBucket).NumBuckets * (openFresh hashBits perBucket).BucketSize
    rw [hNB', hBS]
    exact hUS
  · exact hUle
  · exact hSF
  · exact hGr
  · intro i _
    exact hzero i
  · intro h _
    rfl
  · intro h hh
    refine ChainOK.last h ?_ ?_
    · rw [hNB']
      rw [hIB] at hh
      exact hh
    · exact uvarintAt_of_first_zero _ _ (hzero _)
  · intro h h' _ _ hne b hb hb'
    simp only [List.mem_singleton] at hb hb'
    exact hne (hb.symm.trans hb' |>.symm ▸ rfl)
  · intro h _
    exact .nil _ (fun a _ j _ => hzero _)

theorem openFresh_NumBuckets (hashBits perBucket : Nat) :
    (openFresh hashBits perBucket).NumBuckets = 2 ^ hashBits := by
  have hbase := checkSizeAndEnsure_invariants
    { UsedSize := 0, Size := 0, Growth := HASH_TABLE_GROWTH, FileLen := 0, Buf := fun _ => 0 }
    HASH_TABLE_GROWTH rfl rfl
  exact (openHashFile_facts hashBits perBucket (openEmptyFile HASH_TABLE_GROWTH)
    (openEmptyFile_buf HASH_TABLE_GROWTH) hbase.2.2.1 hbase.2.1).1

/-- **C1**: for every sequence of `Put(k_i, v_i)` on a freshly opened table
(no intervening `Remove`) and every key `k`, `Get(k, 0, always-true)`
returns exactly the pairs inserted under `k` — every value inserted under
`k`, nothing inserted under any other key (even one hashing to the same
head bucket), no duplicates beyond those inserted — in insertion order.
The keys and values are 64-bit as in the source, and the bucket count
stays below 2^64 so the header varints are faithful. -/
theorem c1_put_get (hashBits perBucket : Nat) (ps : List (Nat × Nat)) (key : Nat)
    (hpb : 1 ≤ perBucket)
    (hbound : ∀ p ∈ ps, p.1 < 2 ^ 64 ∧ p.2 < 2 ^ 64)
    (hcount : 2 ^ hashBits + ps.length < 2 ^ 64) :
    ∃ ht', runPuts (openFresh hashBits perBucket) ps = some ht' ∧
      ht'.Get key 0 alwaysTrue =
        some ((ps.filter fun p => p.1 = key).map Prod.fst,
              (ps.filter fun p => p.1 = key).map Prod.snd) := by
  obtain ⟨ht', hrun, hhb', hrep⟩ :=
    runPuts_rep ps hashBits (openFresh hashBits perBucket) (fun h => [h]) (fun _ => [])
      (rep_fresh hashBits perBucket hpb)
      (openHashFile_HashBits hashBits perBucket _)
      hbound
      (by rw [openFresh_NumBuckets]; exact hcount)
  have hrep2 : Rep ht' (chainModel hashBits ps) :=
    rep_congr _ _ _ (fun h => by simp) hrep
  obtain ⟨chains', hw'⟩ := hrep2
  have hget := get_of_rep ht' chains' _ hw' key
  have hkeyeq : ht'.hashKey key = key &&& ((1 <<< hashBits) - 1) := by
    rw [HashTable.hashKey, hhb']
  rw [hkeyeq] at hget
  refine ⟨ht', hrun, ?_⟩
  rw [hget]
  have hAB : (chainModel hashBits ps (key &&& ((1 <<< hashBits) - 1))).filter
      (fun p => p.1 = key) = ps.filter (fun p => p.1 = key) := by
    simp only [chainModel, List.filter_filter]
    refine List.filter_congr (fun p hp => ?_)
    by_cases hpk : p.1 = key
    · simp [hpk]
    · simp [hpk]
  rw [hAB]

/-- Witness for C1: three inserts on `OpenHash(·, 4, 2)`, two of them under
key 0 and one under key 16 (which hashes to the same head bucket 0);
`Get(0, 0, always-true)` returns exactly the two values inserted under 0,
in order. -/
theorem c1_put_get_witness :
    ∃ ht', runPuts (openFresh 4 2) [(0, 100), (16, 200), (0, 300)] = some ht' ∧
      ht'.Get 0 0 alwaysTrue = some ([0, 0], [100, 300]) := by
  obtain ⟨ht', hrun, hget⟩ := c1_put_get 4 2 [(0, 100), (16, 200), (0, 300)] 0
    (by decide) (by decide) (by decide)
  exact ⟨ht', hrun, by rw [hget]; decide⟩

end Tiedot
